import Mathlib

/-!
Verification development for the `graft` conversation harness
(`graft.py`).  The Python source is shallowly embedded: pure helper
functions become Lean functions, the filesystem and the shell become
explicit state, exceptions become `Except`, and the turn loop of
`GraftSession.send_message` becomes structural recursion over the finite
script of streamed responses.  Paths are modeled as lists of components
(a path string `"a/b"` is represented by `["a", "b"]`); every path handed
to a tool is treated as relative to the sandbox root, matching the
documented tool schemas.
-/

namespace Graft

/-! ## Python-level errors

`PyErr.valueError` models a raised `ValueError` (formatted by
`ToolExecutor.execute` as `Error: <message>`); `PyErr.other` models any
other exception (formatted as `Error: <type name>: <message>`). -/

inductive PyErr where
  | valueError (msg : String)
  | other (kind : String) (msg : String)
deriving DecidableEq, Repr

/-- Formatting applied by the `except` clauses of `ToolExecutor.execute`:
`except ValueError as e: return f"Error: {e}"` and
`except Exception as e: return f"Error: {type(e).__name__}: {e}"`. -/
def pyErrToString : PyErr → String
  | .valueError msg => "Error: " ++ msg
  | .other kind msg => "Error: " ++ kind ++ ": " ++ msg

/-! ## Path model (`ToolExecutor._safe_path`) -/

/-- A filesystem path, as its list of components. -/
abbrev PathC := List String

/-- Render a component path back into the string form used inside the
tool result messages. -/
def joinPath (p : PathC) : String := String.intercalate "/" p

/-- Lexical canonicalization performed by `Path.resolve()` on a
symlink-free tree: `.` components vanish, `..` removes the preceding
component (staying put at the filesystem root), names are appended. -/
def normComponents (comps : List String) : PathC :=
  comps.foldl
    (fun acc c =>
      if c = "." then acc
      else if c = ".." then acc.dropLast
      else acc ++ [c])
    []

/-- Embedding of `ToolExecutor._safe_path`: join the project root with
the requested path, canonicalize (`resolve`), then verify containment
with `requested.relative_to(self.project_root)`, which succeeds exactly
when the root's components are a prefix of the canonical result.  On
failure raise `ValueError` with the access-denied message. -/
def safe_path (root : PathC) (p : PathC) : Except PyErr PathC :=
  let requested := normComponents (root ++ p)
  if root.isPrefixOf requested then .ok requested
  else .error (.valueError
    ("Access denied: path '" ++ joinPath p ++ "' is outside project root"))

/-- Spec-side notion used by claim C2: the canonical result is the root
itself or a descendant of it. -/
def rootOrDescendant (root q : PathC) : Prop :=
  q = root ∨ ∃ rest : List String, rest ≠ [] ∧ q = root ++ rest

instance (root q : PathC) : Decidable (rootOrDescendant root q) :=
  decidable_of_iff (root.isPrefixOf q = true) (by
    rw [List.isPrefixOf_iff_prefix]
    constructor
    · rintro ⟨rest, rfl⟩
      cases rest with
      | nil => left; simp
      | cons a t => right; exact ⟨a :: t, by simp, rfl⟩
    · rintro (rfl | ⟨rest, _, rfl⟩)
      · exact ⟨[], by simp⟩
      · exact ⟨rest, rfl⟩)

/-! ## Filesystem model -/

/-- A node in the modeled filesystem: a directory or a text file. -/
inductive FsNode where
  | dir
  | file (content : String)
deriving DecidableEq, Repr

/-- The filesystem: a finite association of canonical paths to nodes. -/
abbrev Fs := List (PathC × FsNode)

def Fs.lookup : Fs → PathC → Option FsNode
  | [], _ => none
  | e :: t, p => if e.1 = p then some e.2 else Fs.lookup t p

/-- Create or replace the node at `p`. -/
def Fs.setNode (fs : Fs) (p : PathC) (n : FsNode) : Fs :=
  (p, n) :: fs.filter (fun e => ¬ e.1 = p)

def Fs.pathExists (fs : Fs) (p : PathC) : Bool :=
  (fs.lookup p).isSome

def Fs.isDir (fs : Fs) (p : PathC) : Bool :=
  match fs.lookup p with
  | some .dir => true
  | _ => false

def Fs.isFile (fs : Fs) (p : PathC) : Bool :=
  match fs.lookup p with
  | some (.file _) => true
  | _ => false

/-- All nonempty proper-or-improper prefixes of `p`, shortest first. -/
def pathPrefixes (p : PathC) : List PathC :=
  (List.range p.length).map (fun i => p.take (i + 1))

/-- Embedding of `path.parent.mkdir(parents=True, exist_ok=True)` for
the directory `p`: walk the prefixes of `p`, creating missing
directories; an existing directory is fine (`exist_ok`), an existing
file raises. -/
def mkdirParents (fs : Fs) (p : PathC) : Except PyErr Fs :=
  (pathPrefixes p).foldlM
    (fun acc pre =>
      match acc.lookup pre with
      | some .dir => .ok acc
      | some (.file _) => .error (.other "FileExistsError" (joinPath pre))
      | none => .ok (acc.setNode pre .dir))
    fs

/-! ## Tool operations (`ToolExecutor`) -/

/-- Embedding of `ToolExecutor._list_dir`.  The raised `ValueError` of
`_safe_path` propagates as `.error`; the not-found and not-a-directory
cases are returned (not raised) as `Error: ...` strings, exactly as in
the source. -/
def list_dir (root : PathC) (fs : Fs) (pstr : PathC) : Except PyErr String :=
  match safe_path root pstr with
  | .error e => .error e
  | .ok path =>
    if ¬ fs.pathExists path then
      .ok ("Error: Directory '" ++ joinPath pstr ++ "' does not exist")
    else if ¬ fs.isDir path then
      .ok ("Error: '" ++ joinPath pstr ++ "' is not a directory")
    else
      let children := (fs.filter
        (fun e => e.1.length = path.length + 1 ∧ path.isPrefixOf e.1))
      let entries := (children.map
        (fun e =>
          (if fs.isDir e.1 then "[d] " else "    ") ++ joinPath (e.1.drop path.length)))
      let sorted := entries.mergeSort (fun a b => a ≤ b)
      if sorted.isEmpty then .ok "(empty directory)"
      else .ok (String.intercalate "\n" sorted)

/-- Embedding of `ToolExecutor._read_file`.  File contents are modeled
as text, so the `UnicodeDecodeError` branch of the source does not
arise. -/
def read_file (root : PathC) (fs : Fs) (pstr : PathC) : Except PyErr String :=
  match safe_path root pstr with
  | .error e => .error e
  | .ok path =>
    if ¬ fs.pathExists path then
      .ok ("Error: File '" ++ joinPath pstr ++ "' does not exist")
    else
      match fs.lookup path with
      | some (.file c) => .ok c
      | _ => .ok ("Error: '" ++ joinPath pstr ++ "' is not a file")

/-- Embedding of `ToolExecutor._write_file`: resolve, create missing
parent directories, write the content, and report
`Successfully wrote {len(content)} bytes to {path_str}` (note that the
source reports `len(content)`, the character count).  Returns the
updated filesystem together with the result. -/
def write_file (root : PathC) (fs : Fs) (pstr : PathC) (content : String) :
    Fs × Except PyErr String :=
  match safe_path root pstr with
  | .error e => (fs, .error e)
  | .ok path =>
    match mkdirParents fs path.dropLast with
    | .error e => (fs, .error e)
    | .ok fs2 =>
      match fs2.lookup path with
      | some .dir => (fs2, .error (.other "IsADirectoryError" (joinPath pstr)))
      | _ =>
        (fs2.setNode path (.file content),
         .ok ("Successfully wrote " ++ toString content.length ++ " bytes to "
              ++ joinPath pstr))

/-- The outcome of the external `subprocess.run` call made by
`_shell_exec`; the subprocess itself is outside the embedding, so its
behavior is an oracle. -/
inductive ShellOutcome where
  | completed (stdout : String) (stderr : String) (returncode : Int)
  | timedOut
  | raised (kind : String) (msg : String)

/-- The timeout message returned by `_shell_exec`. -/
def shellTimeoutMsg : String :=
  "Error: Command timed out and was killed after 30 seconds. Note: any child processes spawned by this command may still be running (check with `pgrep` or `ps aux`). For long-running commands, use `screen -dmS name command` to fully detach, then `screen -r name` to check on it."

/-- Embedding of `ToolExecutor._shell_exec`: compose stdout, stderr and
a non-zero exit code into one string; the timeout and any exception are
caught inside the method itself, so it never raises. -/
def shell_exec (shell : String → ShellOutcome) (command : String) : String :=
  match shell command with
  | .completed out err code =>
    let parts : List String :=
      (if out ≠ "" then ["stdout:\n" ++ out] else [])
      ++ (if err ≠ "" then ["stderr:\n" ++ err] else [])
      ++ (if code ≠ 0 then ["(exit code: " ++ toString code ++ ")"] else [])
    if parts.isEmpty then "(no output)"
    else String.intercalate "\n" parts
  | .timedOut => shellTimeoutMsg
  | .raised kind msg => "Error: " ++ kind ++ ": " ++ msg

/-- The tool input dictionary: string keys to string values. -/
abbrev ToolInput := List (String × String)

/-- Embedding of `tool_input[key]`: a missing key raises `KeyError`
(whose `str` is the quoted key). -/
def getKey (input : ToolInput) (k : String) : Except PyErr String :=
  match input.find? (fun e => e.1 = k) with
  | some e => .ok e.2
  | none => .error (.other "KeyError" ("'" ++ k ++ "'"))

/-- Parse a path string of the tool input into components, mirroring
`self.project_root / path_str` for a relative `path_str`. -/
def parsePath (s : String) : PathC :=
  (s.splitOn "/").filter (fun c => ¬ c = "")

/-- The body of `ToolExecutor.execute`, before the surrounding
`try`/`except`: dispatch on the tool name; any raised exception
surfaces as `.error`.  Returns the (possibly updated) filesystem
together with the outcome. -/
def executeBody (root : PathC) (fs : Fs) (shell : String → ShellOutcome)
    (tool_name : String) (tool_input : ToolInput) : Fs × Except PyErr String :=
  if tool_name = "list_dir" then
    match getKey tool_input "path" with
    | .error e => (fs, .error e)
    | .ok p => (fs, list_dir root fs (parsePath p))
  else if tool_name = "read_file" then
    match getKey tool_input "path" with
    | .error e => (fs, .error e)
    | .ok p => (fs, read_file root fs (parsePath p))
  else if tool_name = "write_file" then
    match getKey tool_input "path" with
    | .error e => (fs, .error e)
    | .ok p =>
      match getKey tool_input "content" with
      | .error e => (fs, .error e)
      | .ok c => write_file root fs (parsePath p) c
  else if tool_name = "shell_exec" then
    match getKey tool_input "command" with
    | .error e => (fs, .error e)
    | .ok cmd => (fs, .ok (shell_exec shell cmd))
  else
    (fs, .ok ("Error: Unknown tool '" ++ tool_name ++ "'"))

/-- Embedding of `ToolExecutor.execute`: run the body under the
`try`/`except` pair, converting any raised error into its textual
form.  The result is always a plain string. -/
def execute (root : PathC) (fs : Fs) (shell : String → ShellOutcome)
    (tool_name : String) (tool_input : ToolInput) : Fs × String :=
  ((executeBody root fs shell tool_name tool_input).1,
   match (executeBody root fs shell tool_name tool_input).2 with
   | .ok s => s
   | .error e => pyErrToString e)

instance {ε α : Type} [DecidableEq ε] [DecidableEq α] :
    DecidableEq (Except ε α) := fun x y =>
  match x, y with
  | .ok a, .ok b =>
    if h : a = b then .isTrue (by rw [h])
    else .isFalse (by intro hc; cases hc; exact h rfl)
  | .error a, .error b =>
    if h : a = b then .isTrue (by rw [h])
    else .isFalse (by intro hc; cases hc; exact h rfl)
  | .ok _, .error _ => .isFalse (by intro hc; cases hc)
  | .error _, .ok _ => .isFalse (by intro hc; cases hc)

/-! ## Conversation data model -/

/-- The `cache_control` dictionary attached to a content block:
`{"type": "ephemeral"}` (field `ttl = none`, the default 5-minute
marker) or `{"type": "ephemeral", "ttl": 3600}` (field
`ttl = some 3600`). -/
structure CacheControl where
  ttl : Option Nat
deriving DecidableEq, Repr

/-- The tagged payload of a content block dictionary. -/
inductive BlockPayload where
  | text (text : String)
  | thinking (thinking : String) (signature : Option String)
  | toolUse (id : String) (name : String) (input : ToolInput)
  | toolResult (toolUseId : String) (content : String)
deriving DecidableEq, Repr

/-- A content block dictionary: the payload plus an optional
`cache_control` entry. -/
structure Block where
  payload : BlockPayload
  cacheControl : Option CacheControl := none
deriving DecidableEq, Repr

/-- Message content: either a plain string or a list of block
dictionaries. -/
inductive Content where
  | str (s : String)
  | blocks (bs : List Block)
deriving DecidableEq, Repr

/-- A conversation message dictionary. -/
structure Message where
  role : String
  content : Content
deriving DecidableEq, Repr

/-! ## Cache planner (`prepare_messages_for_cache`) -/

/-- Embedding of the inner `is_human_message` predicate: role `user`
and either string content or a block list containing at least one
`text` block. -/
def is_human_message (m : Message) : Bool :=
  m.role = "user" &&
    match m.content with
    | .str _ => true
    | .blocks bs =>
      bs.any (fun b =>
        match b.payload with
        | .text _ => true
        | _ => false)

/-- The body of the `for i, msg in enumerate(messages)` loop of
`prepare_messages_for_cache`, producing the prepared message for
index `i`. -/
def prepCore (cache_control : CacheControl) (cache_index : Int)
    (i : Nat) (msg : Message) : Message :=
  match msg.content with
  | .str s =>
    if (i : Int) = cache_index then
      ⟨msg.role, .blocks [⟨.text s, some cache_control⟩]⟩
    else
      ⟨msg.role, .blocks [⟨.text s, none⟩]⟩
  | .blocks bs =>
    if (i : Int) = cache_index then
      match bs.getLast? with
      | some b =>
        ⟨msg.role, .blocks (bs.dropLast ++ [{ b with cacheControl := some cache_control }])⟩
      | none => ⟨msg.role, .blocks bs⟩
    else ⟨msg.role, .blocks bs⟩

/-- Embedding of `prepare_messages_for_cache(messages, cache_ttl)`.
When caching is off or fewer than two messages exist the input is
returned as is; otherwise every string content is normalized to a
single text block and the `cache_control` marker is attached to the
last block of the message at `cache_index` (the second-to-last human
message, `-1` when fewer than two exist). -/
def prepare_messages_for_cache (messages : List Message)
    (cache_ttl : String) : List Message :=
  if cache_ttl = "off" ∨ messages.length < 2 then messages
  else
    let cache_control : CacheControl :=
      if cache_ttl = "1h" then ⟨some 3600⟩ else ⟨none⟩
    let human_indices :=
      ((messages.enum).filter (fun p => is_human_message p.2)).map (fun p => p.1)
    let cache_index : Int :=
      if 2 ≤ human_indices.length then
        (((human_indices.get? (human_indices.length - 2)).getD 0 : Nat) : Int)
      else -1
    (messages.enum).map (fun p => prepCore cache_control cache_index p.1 p.2)

/-! ## Spec-side cache planner (for the refinement claim C5)

The following definitions follow the wording of the specification
(as amended: the `off`/short-list branch returns the input without
normalization). -/

/-- Normalization of plain-text content into single-block form. -/
def normalizeMessage (m : Message) : Message :=
  match m.content with
  | .str s => ⟨m.role, .blocks [⟨.text s, none⟩]⟩
  | .blocks _ => m

/-- Attach the cache marker to the last content block of a message. -/
def annotateLastBlock (m : Message) (cc : CacheControl) : Message :=
  match m.content with
  | .str _ => m
  | .blocks bs =>
    match bs.getLast? with
    | some b =>
      ⟨m.role, .blocks (bs.dropLast ++ [{ b with cacheControl := some cc }])⟩
    | none => m

/-- The marker demanded by the spec for each ttl: a default ephemeral
marker for `5m`, an ephemeral marker with an explicit 3600-second
duration for `1h`. -/
def specMarker (ttl : String) : CacheControl :=
  if ttl = "1h" then ⟨some 3600⟩ else ⟨none⟩

/-- Index of the second-to-last human-text message, when at least two
exist. -/
def secondToLastHumanIndex (messages : List Message) : Option Nat :=
  let hi := ((messages.enum).filter (fun p => is_human_message p.2)).map (fun p => p.1)
  if 2 ≤ hi.length then hi.get? (hi.length - 2) else none

/-- The cache planner as the (amended) specification words it: return
the input unchanged when caching is off or fewer than two messages
exist; otherwise normalize every message and attach exactly one marker
to the last block of the second-to-last human-text message, applying no
annotation when fewer than two human-text messages exist. -/
def prepareSpec (messages : List Message) (ttl : String) : List Message :=
  if ttl = "off" ∨ messages.length < 2 then messages
  else
    match secondToLastHumanIndex messages with
    | none => messages.map normalizeMessage
    | some k =>
      (messages.enum).map (fun p =>
        if p.1 = k then annotateLastBlock (normalizeMessage p.2) (specMarker ttl)
        else normalizeMessage p.2)

/-- Number of blocks of a message carrying a `cache_control` marker. -/
def msgMarkers (m : Message) : Nat :=
  match m.content with
  | .str _ => 0
  | .blocks bs => (bs.filter (fun b => b.cacheControl.isSome)).length

/-- Total number of cache markers in a message list. -/
def countMarkers (l : List Message) : Nat :=
  (l.map msgMarkers).sum

/-! ## Rate limiter (`GraftSession._check_tool_rate`) -/

/-- The advisory text produced when the sliding window reaches 10
calls. -/
def rateAdvisory (n : Nat) : String :=
  "\n\n[Note: " ++ toString n ++ " tool calls in the last 60 seconds. For bulk operations or complex tasks, consider `claude-sub --async 'description' 'prompt'` to delegate to Claude Code (uses Max plan instead of API credits). Or add sleep between polling checks.]"

/-- Embedding of `GraftSession._check_tool_rate`: prune timestamps
older than 60 seconds, append the current time, and return the updated
window together with the advisory (empty when the window holds fewer
than 10 calls). -/
def check_tool_rate (recent_tool_calls : List Int) (now : Int) :
    List Int × String :=
  let pruned := recent_tool_calls.filter (fun t => now - t < 60)
  let recent2 := pruned ++ [now]
  (recent2, if 10 ≤ recent2.length then rateAdvisory recent2.length else "")

/-! ## Streamed responses and `GraftSession._serialize_content` -/

/-- A content block of a streamed response, as assembled by the event
loop; `other` stands for any block carrying none of the attributes the
serializer inspects (it is skipped). -/
inductive RespBlock where
  | text (text : String)
  | thinking (thinking : String) (signature : Option String)
  | toolUse (id : String) (name : String) (input : ToolInput)
  | other
deriving DecidableEq, Repr

/-- A completed streamed response: the stop reason and the assembled
content blocks. -/
structure Resp where
  stopReason : String
  content : List RespBlock
deriving DecidableEq, Repr

/-- Embedding of `GraftSession._serialize_content`: thinking blocks are
stored with their text and signature verbatim, text blocks as text,
tool-use blocks with id, name and input; anything else is dropped. -/
def serialize_content : List RespBlock → List Block
  | [] => []
  | .thinking t sig :: rest => ⟨.thinking t sig, none⟩ :: serialize_content rest
  | .text t :: rest => ⟨.text t, none⟩ :: serialize_content rest
  | .toolUse id name input :: rest =>
    ⟨.toolUse id name input, none⟩ :: serialize_content rest
  | .other :: rest => serialize_content rest

/-- The visible text accumulated from the stream's text deltas
(`response_text` in the source): the concatenation of the text blocks'
text. -/
def responseText : List RespBlock → String
  | [] => ""
  | .text t :: rest => t ++ responseText rest
  | _ :: rest => responseText rest

/-- The tool-use requests of a response, in emission order, as
`(id, name, input)` triples. -/
def toolUsesOf : List RespBlock → List (String × String × ToolInput)
  | [] => []
  | .toolUse id name input :: rest => (id, name, input) :: toolUsesOf rest
  | _ :: rest => toolUsesOf rest

/-! ## Turn loop (`GraftSession.send_message`) -/

/-- The per-session state threaded through a turn: the sandbox
filesystem, the external shell oracle, the rate-limit window and the
stream of wall-clock instants handed out by `time.time()` (one per tool
call; exhausted clocks return 0). -/
structure TurnState where
  fs : Fs
  shell : String → ShellOutcome
  recent : List Int
  clock : List Int

/-- Session configuration relevant to the turn loop: the sandbox root
of the tool executor, when one is configured. -/
structure SessionCfg where
  toolRoot : Option PathC

/-- Pop the next wall-clock instant. -/
def nextTime : List Int → Int × List Int
  | [] => (0, [])
  | t :: ts => (t, ts)

/-- Execute one tool-use request: run `ToolExecutor.execute` (or report
the missing executor), then append the rate-limit advisory to the
result, producing the stored `tool_result` block. -/
def execTool (cfg : SessionCfg) (st : TurnState)
    (tu : String × String × ToolInput) : TurnState × Block :=
  let fsResult :=
    match cfg.toolRoot with
    | some root => execute root st.fs st.shell tu.2.1 tu.2.2
    | none => (st.fs, "Error: Tool executor not configured")
  let timePair := nextTime st.clock
  let ratePair := check_tool_rate st.recent timePair.1
  (⟨fsResult.1, st.shell, ratePair.1, timePair.2⟩,
   ⟨.toolResult tu.1 (fsResult.2 ++ ratePair.2), none⟩)

/-- Execute the tool-use requests of one response in emission order,
one at a time, collecting one result block per request. -/
def execTools (cfg : SessionCfg) (st : TurnState) :
    List (String × String × ToolInput) → TurnState × List Block
  | [] => (st, [])
  | tu :: rest =>
    let r1 := execTool cfg st tu
    let r2 := execTools cfg r1.1 rest
    (r2.1, r1.2 :: r2.2)

/-- The assistant content stored when the loop exits: the structured
serialized blocks when the stop reason still says `tool_use` (but no
tool-use blocks arrived), otherwise the plain accumulated response
text. -/
def finalContent (resp : Resp) : Content :=
  if resp.stopReason = "tool_use" then .blocks (serialize_content resp.content)
  else .str (responseText resp.content)

/-- Embedding of the `except` clause of `send_message`: pop the last
message when it has role `user`. -/
def rollbackUser (messages : List Message) : List Message :=
  match messages.getLast? with
  | some m => if m.role = "user" then messages.dropLast else messages
  | none => messages

/-- One streaming request of the turn: `some resp` is a completed
stream, `none` a transport-level failure (a raised exception). -/
abbrev StreamStep := Option Resp

/-- The `while True` loop of `send_message`, consuming one scripted
stream step per request.  A transport failure (or an exhausted script)
raises out of the loop into the `except` clause, which rolls back the
trailing message when its role is `user`. -/
def runTurn (cfg : SessionCfg) (messages : List Message) :
    List StreamStep → TurnState → List Message
  | [], _ => rollbackUser messages
  | none :: _, _ => rollbackUser messages
  | some resp :: rest, st =>
    let tool_uses := toolUsesOf resp.content
    if resp.stopReason ≠ "tool_use" ∨ tool_uses = [] then
      messages ++ [⟨"assistant", finalContent resp⟩]
    else
      let messages2 := messages ++ [⟨"assistant", .blocks (serialize_content resp.content)⟩]
      let r := execTools cfg st tool_uses
      let messages3 := messages2 ++ [⟨"user", .blocks r.2⟩]
      runTurn cfg messages3 rest r.1

/-- Embedding of `GraftSession.send_message`: append the user message,
then run the request/stream/tool loop over the scripted stream steps.
The returned list is the conversation's message list after the call. -/
def send_message (cfg : SessionCfg) (messages : List Message)
    (user_input : String) (script : List StreamStep) (st : TurnState) :
    List Message :=
  runTurn cfg (messages ++ [⟨"user", .str user_input⟩]) script st

/-- Thinking blocks of stored content, as `(text, signature)` pairs in
order. -/
def thinkingOfBlocks : List Block → List (String × Option String)
  | [] => []
  | b :: rest =>
    match b.payload with
    | .thinking t sig => (t, sig) :: thinkingOfBlocks rest
    | _ => thinkingOfBlocks rest

/-- Thinking blocks of a streamed response, as `(text, signature)`
pairs in order. -/
def thinkingOfResp : List RespBlock → List (String × Option String)
  | [] => []
  | .thinking t sig :: rest => (t, sig) :: thinkingOfResp rest
  | _ :: rest => thinkingOfResp rest

/-- Thinking blocks reachable from stored message content. -/
def msgThinking (c : Content) : List (String × Option String) :=
  match c with
  | .str _ => []
  | .blocks bs => thinkingOfBlocks bs

/-- The `tool_use_id` of a stored block, when it is a tool result. -/
def blockResultId (b : Block) : Option String :=
  match b.payload with
  | .toolResult id _ => some id
  | _ => none

/-- Does a stored message carry at least one `tool_result` block? -/
def isToolResultMsg (m : Message) : Bool :=
  match m.content with
  | .str _ => false
  | .blocks bs => bs.any (fun b => (blockResultId b).isSome)

/-- Count of messages with a given role. -/
def countRole (role : String) (l : List Message) : Nat :=
  (l.filter (fun m => m.role = role)).length

/-- Count of tool-result-bearing messages. -/
def countToolResultMsgs (l : List Message) : Nat :=
  (l.filter isToolResultMsg).length

/-! ## Turn-shape analysis helpers

These describe the message sequence appended by a turn consisting of
some completed tool rounds followed by a terminal response; they are
related to `runTurn` by `runTurn_eq_turnAppends` below. -/

/-- Messages appended after the initial user message by a turn with the
given tool rounds and terminal response. -/
def turnAppends (cfg : SessionCfg) : List Resp → Resp → TurnState → List Message
  | [], finalR, _ => [⟨"assistant", finalContent finalR⟩]
  | r :: rs, finalR, st =>
    let e := execTools cfg st (toolUsesOf r.content)
    ⟨"assistant", .blocks (serialize_content r.content)⟩
      :: ⟨"user", .blocks e.2⟩
      :: turnAppends cfg rs finalR e.1

/-- The tool-result block lists produced round by round. -/
def roundResults (cfg : SessionCfg) : TurnState → List Resp → List (List Block)
  | _, [] => []
  | st, r :: rs =>
    let e := execTools cfg st (toolUsesOf r.content)
    e.2 :: roundResults cfg e.1 rs

/-! ## Heap-level object model (for the purity claim C6)

To state that `prepare_messages_for_cache` does not mutate its input,
the Python object graph is made explicit: a heap of objects addressed
by allocation order.  The function is re-run over this heap
(`prepareH`), performing exactly the reads and allocations of the
source; the theorems show the heap is only ever extended, and that the
result's denotation is `prepare_messages_for_cache` of the input's
denotation. -/

/-- The `content` entry of a message dict: a string or a reference to a
list-of-blocks object. -/
inductive HContent where
  | str (s : String)
  | ref (a : Nat)
deriving DecidableEq, Repr

/-- A heap object: the message-list, a message dict, a block-list, or a
block dict. -/
inductive HObj where
  | hMsgs (refs : List Nat)
  | hMsg (role : String) (content : HContent)
  | hBlocks (refs : List Nat)
  | hBlock (b : Block)
deriving DecidableEq, Repr

/-- The heap: objects in allocation order, addressed by index.
Allocation appends to the heap; the address of an object allocated on
a heap `H` is `H.length` (plus its offset when several objects are
allocated at once). -/
abbrev Heap := List HObj

def readMsgs (H : Heap) (a : Nat) : Option (List Nat) :=
  match H.get? a with
  | some (.hMsgs rs) => some rs
  | _ => none

def readMsg (H : Heap) (a : Nat) : Option (String × HContent) :=
  match H.get? a with
  | some (.hMsg r c) => some (r, c)
  | _ => none

def readBlocks (H : Heap) (a : Nat) : Option (List Nat) :=
  match H.get? a with
  | some (.hBlocks rs) => some rs
  | _ => none

def readBlock (H : Heap) (a : Nat) : Option Block :=
  match H.get? a with
  | some (.hBlock b) => some b
  | _ => none

/-- Heap-level `any(block.get('type') == 'text' for block in content)`. -/
def anyTextH (H : Heap) : List Nat → Option Bool
  | [] => some false
  | r :: rs =>
    match readBlock H r with
    | none => none
    | some b =>
      match b.payload with
      | .text _ => some true
      | _ => anyTextH H rs

/-- Heap-level `is_human_message`. -/
def isHumanH (H : Heap) (a : Nat) : Option Bool :=
  match readMsg H a with
  | none => none
  | some rc =>
    if rc.1 = "user" then
      match rc.2 with
      | .str _ => some true
      | .ref l =>
        match readBlocks H l with
        | none => none
        | some refs => anyTextH H refs
    else some false

/-- Heap-level human-message index collection, counting from `i`. -/
def humanIndicesH (H : Heap) : Nat → List Nat → Option (List Nat)
  | _, [] => some []
  | i, a :: as =>
    match isHumanH H a with
    | none => none
    | some b =>
      match humanIndicesH H (i + 1) as with
      | none => none
      | some rest => some (if b then i :: rest else rest)

/-- Heap-level body of the preparation loop for the message at address
`a` and index `i`: string content allocates a fresh single-block list;
list content at the cache index is copied (`content.copy()`) with a
freshly allocated annotated last block; any other list content is
shared unchanged.  A fresh message dict is allocated in every case. -/
def prepareMsgH (H : Heap) (cc : CacheControl) (cache_index : Int)
    (i : Nat) (a : Nat) : Option (Heap × Nat) :=
  match readMsg H a with
  | none => none
  | some (role, .str s) =>
    some (H ++ [.hBlock ⟨.text s, if (i : Int) = cache_index then some cc else none⟩,
                .hBlocks [H.length],
                .hMsg role (.ref (H.length + 1))],
          H.length + 2)
  | some (role, .ref lref) =>
    if (i : Int) = cache_index then
      match readBlocks H lref with
      | none => none
      | some refs =>
        match refs.getLast? with
        | none =>
          some (H ++ [.hBlocks refs, .hMsg role (.ref H.length)], H.length + 1)
        | some lastRef =>
          match readBlock H lastRef with
          | none => none
          | some b =>
            some (H ++ [.hBlock { b with cacheControl := some cc },
                        .hBlocks (refs.dropLast ++ [H.length]),
                        .hMsg role (.ref (H.length + 1))],
                  H.length + 2)
    else
      some (H ++ [.hMsg role (.ref lref)], H.length)

/-- Heap-level preparation loop over the message addresses, counting
from index `i`. -/
def prepareListH (H : Heap) (cc : CacheControl) (cache_index : Int) :
    Nat → List Nat → Option (Heap × List Nat)
  | _, [] => some (H, [])
  | i, a :: as =>
    match prepareMsgH H cc cache_index i a with
    | none => none
    | some p =>
      match prepareListH p.1 cc cache_index (i + 1) as with
      | none => none
      | some q => some (q.1, p.2 :: q.2)

/-- Heap-level `prepare_messages_for_cache`, applied to the address of
the conversation's message-list object.  When caching is off or fewer
than two messages exist, the input object itself is returned. -/
def prepareH (H : Heap) (a : Nat) (ttl : String) : Option (Heap × Nat) :=
  match readMsgs H a with
  | none => none
  | some msgRefs =>
    if ttl = "off" ∨ msgRefs.length < 2 then some (H, a)
    else
      let cc : CacheControl := if ttl = "1h" then ⟨some 3600⟩ else ⟨none⟩
      match humanIndicesH H 0 msgRefs with
      | none => none
      | some hi =>
        let cache_index : Int :=
          if 2 ≤ hi.length then (((hi.get? (hi.length - 2)).getD 0 : Nat) : Int)
          else -1
        match prepareListH H cc cache_index 0 msgRefs with
        | none => none
        | some p => some (p.1 ++ [.hMsgs p.2], p.1.length)

/-- Read back a block-list object as a list of block values. -/
def denoteBlockList (H : Heap) : List Nat → Option (List Block)
  | [] => some []
  | r :: rs =>
    match readBlock H r, denoteBlockList H rs with
    | some b, some bs => some (b :: bs)
    | _, _ => none

/-- Read back message content as a content value. -/
def denoteContent (H : Heap) : HContent → Option Content
  | .str s => some (.str s)
  | .ref l =>
    match readBlocks H l with
    | none => none
    | some refs => (denoteBlockList H refs).map .blocks

/-- Read back a message dict as a message value. -/
def denoteMsg (H : Heap) (a : Nat) : Option Message :=
  match readMsg H a with
  | none => none
  | some rc => (denoteContent H rc.2).map (fun c => ⟨rc.1, c⟩)

/-- Read back a list of message addresses as message values. -/
def denoteMsgList (H : Heap) : List Nat → Option (List Message)
  | [] => some []
  | a :: as =>
    match denoteMsg H a, denoteMsgList H as with
    | some m, some ms => some (m :: ms)
    | _, _ => none

/-- Read back a message-list object as the list of message values. -/
def denoteConv (H : Heap) (a : Nat) : Option (List Message) :=
  match readMsgs H a with
  | none => none
  | some refs => denoteMsgList H refs

/-- A convenient concrete turn state for witnesses: empty filesystem,
inert shell, empty rate window, exhausted clock. -/
def initialState : TurnState := ⟨[], fun _ => .completed "" "" 0, [], []⟩

/-! # Theorems -/

theorem rootOrDescendant_iff (root q : PathC) :
    rootOrDescendant root q ↔ root <+: q := by
  constructor
  · rintro (rfl | ⟨rest, _, rfl⟩)
    · exact ⟨[], by simp⟩
    · exact ⟨rest, rfl⟩
  · rintro ⟨rest, rfl⟩
    cases rest with
    | nil => left; simp
    | cons a t => right; exact ⟨a :: t, by simp, rfl⟩

/-- C2: a relative path whose canonicalized join with the sandbox root
resolves outside the root is rejected by `_safe_path` with the
access-denied `ValueError`; one resolving to the root or a descendant
succeeds and returns the canonical path.  The containment decision
depends only on the canonicalized path `normComponents (root ++ p)`,
never on the raw string. -/
theorem safe_path_containment (root p : PathC) :
    (rootOrDescendant root (normComponents (root ++ p)) →
      safe_path root p = .ok (normComponents (root ++ p))) ∧
    (¬ rootOrDescendant root (normComponents (root ++ p)) →
      safe_path root p = .error (.valueError
        ("Access denied: path '" ++ joinPath p ++ "' is outside project root"))) := by
  have hiff : root.isPrefixOf (normComponents (root ++ p)) = true ↔
      rootOrDescendant root (normComponents (root ++ p)) := by
    rw [List.isPrefixOf_iff_prefix, rootOrDescendant_iff]
  constructor
  · intro h
    unfold safe_path
    rw [if_pos (hiff.mpr h)]
  · intro h
    unfold safe_path
    rw [if_neg (fun hb => h (hiff.mp hb))]

theorem safe_path_containment_witness :
    safe_path ["home", "proj"] ["sub", "f.txt"] =
      .ok ["home", "proj", "sub", "f.txt"] ∧
    safe_path ["home", "proj"] ["..", "..", "etc"] =
      .error (.valueError "Access denied: path '../../etc' is outside project root") :=
  ⟨(safe_path_containment ["home", "proj"] ["sub", "f.txt"]).1 (by decide),
   (safe_path_containment ["home", "proj"] ["..", "..", "etc"]).2 (by decide)⟩

theorem rateAdvisory_ne_empty (n : Nat) : rateAdvisory n ≠ "" := by
  intro h
  have hlen := congrArg String.length h
  rw [rateAdvisory] at hlen
  rw [String.length_append, String.length_append] at hlen
  have h9 : ("\n\n[Note: " : String).length = 9 := rfl
  have h0 : ("" : String).length = 0 := rfl
  rw [h9, h0] at hlen
  omega

/-- C7: `_check_tool_rate` prunes the window to calls younger than 60
seconds, appends the current instant, and produces a non-empty advisory
exactly when the resulting window holds at least 10 calls; in
particular a call 61 seconds after a cluster of 9 calls leaves a window
of size 1 and produces no advisory. -/
theorem check_tool_rate_spec :
    (∀ (recent : List Int) (now : Int),
      (check_tool_rate recent now).1 =
        recent.filter (fun t => now - t < 60) ++ [now] ∧
      ((check_tool_rate recent now).2 ≠ "" ↔
        10 ≤ (recent.filter (fun t => now - t < 60)).length + 1)) ∧
    (check_tool_rate (List.replicate 9 0) 61).2 = "" := by
  constructor
  · intro recent now
    refine ⟨rfl, ?_⟩
    unfold check_tool_rate
    simp only [List.length_append, List.length_singleton]
    by_cases h : 10 ≤ (recent.filter (fun t => now - t < 60)).length + 1
    · rw [if_pos h]
      exact iff_of_true (rateAdvisory_ne_empty _) h
    · rw [if_neg h]
      exact iff_of_false (by simp) h
  · decide

/-- C3: `ToolExecutor.execute` always returns a plain result string: a
successful body result is passed through unchanged, and any raised
error is converted by the `except` clauses into its textual form
(`Error: <message>` for `ValueError`, `Error: <kind>: <message>`
otherwise); the filesystem it returns is exactly the body's. -/
theorem execute_never_raises (root : PathC) (fs : Fs)
    (shell : String → ShellOutcome) (tool_name : String) (tool_input : ToolInput) :
    (execute root fs shell tool_name tool_input).1 =
      (executeBody root fs shell tool_name tool_input).1 ∧
    (∀ s, (executeBody root fs shell tool_name tool_input).2 = .ok s →
      (execute root fs shell tool_name tool_input).2 = s) ∧
    (∀ e, (executeBody root fs shell tool_name tool_input).2 = .error e →
      (execute root fs shell tool_name tool_input).2 = pyErrToString e) := by
  refine ⟨rfl, ?_, ?_⟩ <;> intro x hx <;> unfold execute <;> rw [hx]

theorem execute_never_raises_witness :
    (executeBody ["r"] [] (fun _ => .completed "" "" 0) "read_file" []).2 =
      .error (.other "KeyError" "'path'") ∧
    (execute ["r"] [] (fun _ => .completed "" "" 0) "read_file" []).2 =
      "Error: KeyError: 'path'" :=
  ⟨by decide,
   (execute_never_raises ["r"] [] (fun _ => .completed "" "" 0) "read_file" []).2.2
     (.other "KeyError" "'path'") (by decide)⟩

/-- C10: an unknown tool name makes `execute` return exactly
`Error: Unknown tool '<name>'`, with the filesystem unchanged,
regardless of the input dictionary and of the shell oracle. -/
theorem execute_unknown_tool (root : PathC) (fs : Fs)
    (shell : String → ShellOutcome) (tool_name : String) (tool_input : ToolInput)
    (h1 : tool_name ≠ "list_dir") (h2 : tool_name ≠ "read_file")
    (h3 : tool_name ≠ "write_file") (h4 : tool_name ≠ "shell_exec") :
    execute root fs shell tool_name tool_input =
      (fs, "Error: Unknown tool '" ++ tool_name ++ "'") := by
  unfold execute executeBody
  rw [if_neg h1, if_neg h2, if_neg h3, if_neg h4]

theorem execute_unknown_tool_witness :
    execute ["r"] [] (fun _ => .completed "" "" 0) "frobnicate" [("path", "x")] =
      ([], "Error: Unknown tool 'frobnicate'") :=
  execute_unknown_tool ["r"] [] (fun _ => .completed "" "" 0) "frobnicate"
    [("path", "x")] (by decide) (by decide) (by decide) (by decide)

theorem prepCore_eq_specBody (cc : CacheControl) (k i : Nat) (m : Message) :
    prepCore cc (k : Int) i m =
      if i = k then annotateLastBlock (normalizeMessage m) cc
      else normalizeMessage m := by
  cases m with
  | mk role content =>
    cases content with
    | str s =>
      by_cases h : i = k
      · have h2 : (i : Int) = (k : Int) := by exact_mod_cast h
        simp [prepCore, h, h2, annotateLastBlock, normalizeMessage]
      · have h2 : ¬ ((i : Int) = (k : Int)) := by exact_mod_cast h
        simp [prepCore, h, h2, normalizeMessage]
    | blocks bs =>
      by_cases h : i = k
      · have h2 : (i : Int) = (k : Int) := by exact_mod_cast h
        cases hg : bs.getLast? with
        | none => simp [prepCore, h2, h, normalizeMessage, annotateLastBlock, hg]
        | some b => simp [prepCore, h2, h, normalizeMessage, annotateLastBlock, hg]
      · have h2 : ¬ ((i : Int) = (k : Int)) := by exact_mod_cast h
        simp [prepCore, h, h2, normalizeMessage]

theorem prepCore_neg (cc : CacheControl) (i : Nat) (m : Message) :
    prepCore cc (-1) i m = normalizeMessage m := by
  have h2 : ¬ ((i : Int) = (-1 : Int)) := by omega
  cases m with
  | mk role content =>
    cases content with
    | str s => simp [prepCore, h2, normalizeMessage]
    | blocks bs => simp [prepCore, h2, normalizeMessage]

theorem prepare_eq_prepareSpec (messages : List Message) (ttl : String) :
    prepare_messages_for_cache messages ttl = prepareSpec messages ttl := by
  by_cases h0 : ttl = "off" ∨ messages.length < 2
  · simp [prepare_messages_for_cache, prepareSpec, h0]
  · simp only [prepare_messages_for_cache, prepareSpec, secondToLastHumanIndex,
      if_neg h0]
    by_cases h2 : 2 ≤ (((messages.enum).filter
        (fun p => is_human_message p.2)).map (fun p => p.1)).length
    · rw [if_pos h2, if_pos h2]
      obtain ⟨k, hk⟩ : ∃ k, (((messages.enum).filter
          (fun p => is_human_message p.2)).map (fun p => p.1)).get?
            ((((messages.enum).filter
              (fun p => is_human_message p.2)).map (fun p => p.1)).length - 2) =
            some k := by
        cases hg : (((messages.enum).filter
            (fun p => is_human_message p.2)).map (fun p => p.1)).get?
              ((((messages.enum).filter
                (fun p => is_human_message p.2)).map (fun p => p.1)).length - 2) with
        | some k => exact ⟨k, rfl⟩
        | none =>
          rw [List.get?_eq_none] at hg
          omega
      rw [hk]
      simp only [Option.getD_some]
      have hfun : (fun (p : Nat × Message) =>
          prepCore (if ttl = "1h" then ⟨some 3600⟩ else ⟨none⟩) ((k : Nat) : Int) p.1 p.2)
          = (fun (p : Nat × Message) =>
            if p.1 = k then annotateLastBlock (normalizeMessage p.2) (specMarker ttl)
            else normalizeMessage p.2) := by
        funext p
        rw [prepCore_eq_specBody]
        rfl
      rw [hfun]
    · rw [if_neg h2, if_neg h2]
      have hfun : (fun (p : Nat × Message) =>
          prepCore (if ttl = "1h" then ⟨some 3600⟩ else ⟨none⟩) (-1) p.1 p.2)
          = (fun (p : Nat × Message) => normalizeMessage p.2) := by
        funext p
        exact prepCore_neg _ _ _
      rw [hfun,
        show (fun (p : Nat × Message) => normalizeMessage p.2)
          = (normalizeMessage ∘ Prod.snd) from rfl,
        ← List.map_map, List.enum_map_snd]

theorem msgMarkers_normalize (m : Message) :
    msgMarkers (normalizeMessage m) = msgMarkers m := by
  cases m with
  | mk role content =>
    cases content with
    | str s => simp [normalizeMessage, msgMarkers]
    | blocks bs => simp [normalizeMessage]

theorem msgMarkers_annotate (m : Message) (cc : CacheControl)
    (h : msgMarkers m = 0) : msgMarkers (annotateLastBlock m cc) ≤ 1 := by
  cases m with
  | mk role content =>
    cases content with
    | str s => simp [annotateLastBlock, msgMarkers]
    | blocks bs =>
      cases hg : bs.getLast? with
      | none =>
        simp only [annotateLastBlock, hg]
        omega
      | some b =>
        have hzero : ∀ x ∈ bs, ¬ (x.cacheControl.isSome = true) := by
          have hnil : bs.filter (fun x => x.cacheControl.isSome) = [] := by
            simp only [msgMarkers] at h
            exact List.length_eq_zero.mp h
          exact List.filter_eq_nil_iff.mp hnil
        have hsub : List.Sublist bs.dropLast bs := List.dropLast_sublist bs
        have hdrop : bs.dropLast.filter (fun x => x.cacheControl.isSome) = [] :=
          List.filter_eq_nil_iff.mpr (fun a ha => hzero a (hsub.subset ha))
        simp only [annotateLastBlock, hg, msgMarkers, List.filter_append, hdrop]
        simp

theorem countMarkers_cons (m : Message) (l : List Message) :
    countMarkers (m :: l) = msgMarkers m + countMarkers l := by
  simp [countMarkers]

theorem countMarkers_zero_mem {l : List Message} (h : countMarkers l = 0) :
    ∀ m ∈ l, msgMarkers m = 0 := by
  intro m hm
  unfold countMarkers at h
  exact List.sum_eq_zero_iff.mp h _ (List.mem_map_of_mem _ hm)

theorem countMarkers_specMap_zero (cc : CacheControl) (k : Nat) :
    ∀ (l : List Message) (n : Nat), k < n →
      (∀ m ∈ l, msgMarkers m = 0) →
      countMarkers ((l.enumFrom n).map (fun p =>
        if p.1 = k then annotateLastBlock (normalizeMessage p.2) cc
        else normalizeMessage p.2)) = 0 := by
  intro l
  induction l with
  | nil => intro n _ _; rfl
  | cons m rest ih =>
    intro n hk hall
    have hnk : ¬ (n = k) := by omega
    simp only [List.enumFrom, List.map_cons, countMarkers_cons, if_neg hnk]
    rw [msgMarkers_normalize, hall m (List.mem_cons_self m rest),
      ih (n + 1) (by omega) (fun x hx => hall x (List.mem_cons_of_mem m hx))]

theorem countMarkers_specMap (cc : CacheControl) (k : Nat) :
    ∀ (l : List Message) (n : Nat),
      (∀ m ∈ l, msgMarkers m = 0) →
      countMarkers ((l.enumFrom n).map (fun p =>
        if p.1 = k then annotateLastBlock (normalizeMessage p.2) cc
        else normalizeMessage p.2)) ≤ 1 := by
  intro l
  induction l with
  | nil => intro n _; simp [List.enumFrom, countMarkers]
  | cons m rest ih =>
    intro n hall
    by_cases hnk : n = k
    · have hhead : msgMarkers (annotateLastBlock (normalizeMessage m) cc) ≤ 1 :=
        msgMarkers_annotate _ _
          (by rw [msgMarkers_normalize]; exact hall m (List.mem_cons_self m rest))
      have htail := countMarkers_specMap_zero cc k rest (n + 1) (by omega)
        (fun x hx => hall x (List.mem_cons_of_mem m hx))
      simp only [List.enumFrom, List.map_cons, countMarkers_cons, if_pos hnk, htail]
      omega
    · have htail := ih (n + 1) (fun x hx => hall x (List.mem_cons_of_mem m hx))
      simp only [List.enumFrom, List.map_cons, countMarkers_cons, if_neg hnk]
      rw [msgMarkers_normalize, hall m (List.mem_cons_self m rest)]
      omega

/-- C5 counterexample: with fewer than two messages (or `cache_ttl ==
"off"`) the source returns the input untouched, so plain-text content
is NOT normalized into single-block form, contrary to the claim. -/
theorem prepare_cache_off_counterexample :
    prepare_messages_for_cache [⟨"user", .str "hi"⟩] "5m" = [⟨"user", .str "hi"⟩] ∧
    normalizeMessage ⟨"user", .str "hi"⟩ ≠ (⟨"user", .str "hi"⟩ : Message) := by
  constructor <;> decide

/-- C5 (amended): `prepare_messages_for_cache` coincides with the
spec-side planner `prepareSpec` — returning the input unchanged (and
unnormalized) when caching is off or fewer than two messages exist, and
otherwise normalizing every message and attaching the ttl's marker to
the last block of the second-to-last human-text message only, with no
annotation when fewer than two human-text messages exist; a
marker-free input yields at most one marker, and a message consisting
solely of tool-result blocks does not count as human-text. -/
theorem prepare_messages_for_cache_amended (messages : List Message) (ttl : String) :
    prepare_messages_for_cache messages ttl = prepareSpec messages ttl ∧
    (countMarkers messages = 0 →
      countMarkers (prepare_messages_for_cache messages ttl) ≤ 1) ∧
    is_human_message ⟨"user", .blocks [⟨.toolResult "t1" "out", none⟩]⟩ = false := by
  refine ⟨prepare_eq_prepareSpec messages ttl, ?_, by decide⟩
  intro h0
  rw [prepare_eq_prepareSpec]
  unfold prepareSpec
  by_cases hoff : ttl = "off" ∨ messages.length < 2
  · rw [if_pos hoff, h0]
    omega
  · rw [if_neg hoff]
    cases hs : secondToLastHumanIndex messages with
    | none =>
      have hmap : countMarkers (messages.map normalizeMessage)
          = countMarkers messages := by
        unfold countMarkers
        rw [List.map_map]
        congr 1
        exact List.map_congr_left (fun m _ => msgMarkers_normalize m)

      rw [hmap, h0]
      omega
    | some k =>
      have := countMarkers_specMap (specMarker ttl) k messages 0
        (countMarkers_zero_mem h0)
      simpa [List.enum] using this

theorem prepare_messages_for_cache_amended_witness :
    prepare_messages_for_cache
        [⟨"user", .str "a"⟩, ⟨"assistant", .str "b"⟩, ⟨"user", .str "c"⟩] "1h" =
      prepareSpec
        [⟨"user", .str "a"⟩, ⟨"assistant", .str "b"⟩, ⟨"user", .str "c"⟩] "1h" ∧
    countMarkers (prepare_messages_for_cache
        [⟨"user", .str "a"⟩, ⟨"assistant", .str "b"⟩, ⟨"user", .str "c"⟩] "1h") ≤ 1 :=
  ⟨(prepare_messages_for_cache_amended
      [⟨"user", .str "a"⟩, ⟨"assistant", .str "b"⟩, ⟨"user", .str "c"⟩] "1h").1,
   (prepare_messages_for_cache_amended
      [⟨"user", .str "a"⟩, ⟨"assistant", .str "b"⟩, ⟨"user", .str "c"⟩] "1h").2.1
     (by decide)⟩

theorem lookup_filter_ne (fs : Fs) (p q : PathC) (hne : ¬ q = p) :
    Fs.lookup (fs.filter (fun e => ¬ e.1 = p)) q = Fs.lookup fs q := by
  induction fs with
  | nil => rfl
  | cons e t ih =>
    by_cases he : e.1 = p
    · rw [List.filter_cons_of_neg (by simp [he])]
      rw [Fs.lookup, if_neg (by
        intro hc
        apply hne
        rw [← hc]
        exact he)]
      exact ih
    · rw [List.filter_cons_of_pos (by simp [he])]
      rw [Fs.lookup, Fs.lookup]
      by_cases hq : e.1 = q
      · rw [if_pos hq, if_pos hq]
      · rw [if_neg hq, if_neg hq]
        exact ih

theorem lookup_setNode (fs : Fs) (p q : PathC) (n : FsNode) :
    Fs.lookup (fs.setNode p n) q = if q = p then some n else fs.lookup q := by
  unfold Fs.setNode
  rw [Fs.lookup]
  by_cases h : q = p
  · rw [if_pos h.symm, if_pos h]
  · rw [if_neg (fun hc => h hc.symm), if_neg h, lookup_filter_ne fs p q h]

theorem isDir_iff_lookup (fs : Fs) (p : PathC) :
    fs.isDir p = true ↔ fs.lookup p = some .dir := by
  unfold Fs.isDir
  cases h : fs.lookup p with
  | none => simp
  | some n => cases n <;> simp

theorem isFile_false_lookup {fs : Fs} {p : PathC} (h : fs.isFile p = false) :
    ∀ c, ¬ fs.lookup p = some (.file c) := by
  intro c hc
  unfold Fs.isFile at h
  rw [hc] at h
  exact absurd h (by simp)

theorem mkdirFold_spec (ps : List PathC) :
    ∀ fs : Fs, (∀ pre ∈ ps, fs.isFile pre = false) →
    ∃ fs2, (ps.foldlM (fun acc pre =>
        match Fs.lookup acc pre with
        | some .dir => Except.ok acc
        | some (.file _) => Except.error (PyErr.other "FileExistsError" (joinPath pre))
        | none => Except.ok (acc.setNode pre .dir))
        fs : Except PyErr Fs) = .ok fs2 ∧
      (∀ pre ∈ ps, fs2.isDir pre = true) ∧
      (∀ r, fs2.lookup r = fs.lookup r ∨ (fs2.lookup r = some .dir ∧ r ∈ ps)) := by
  induction ps with
  | nil =>
    intro fs _
    exact ⟨fs, rfl, by simp, fun r => Or.inl rfl⟩
  | cons pre rest ih =>
    intro fs hfile
    have hpre := hfile pre (List.mem_cons_self _ _)
    cases hl : Fs.lookup fs pre with
    | none =>
      have hfile1 : ∀ p ∈ rest, (fs.setNode pre .dir).isFile p = false := by
        intro p hp
        unfold Fs.isFile
        rw [lookup_setNode]
        by_cases hpp : p = pre
        · rw [if_pos hpp]
        · rw [if_neg hpp]
          have := hfile p (List.mem_cons_of_mem _ hp)
          unfold Fs.isFile at this
          exact this
      obtain ⟨fs2, hfold, hdirs, hpres⟩ := ih (fs.setNode pre .dir) hfile1
      refine ⟨fs2, ?_, ?_, ?_⟩
      · rw [List.foldlM_cons, hl]
        exact hfold
      · intro p hp
        rcases List.mem_cons.mp hp with hpp | hpp
        · subst hpp
          rcases hpres p with hq | ⟨hq, _⟩
          · rw [isDir_iff_lookup, hq, lookup_setNode, if_pos rfl]
          · rw [isDir_iff_lookup, hq]
        · exact hdirs p hpp
      · intro r
        rcases hpres r with hq | ⟨hq, hmem⟩
        · rw [hq, lookup_setNode]
          by_cases hrp : r = pre
          · right
            constructor
            · rw [if_pos hrp]
            · rw [hrp]
              exact List.mem_cons_self pre rest
          · rw [if_neg hrp]
            exact Or.inl rfl
        · exact Or.inr ⟨hq, List.mem_cons_of_mem _ hmem⟩
    | some n =>
      cases n with
      | file c => exact absurd hl (isFile_false_lookup hpre c)
      | dir =>
        have hfile1 : ∀ p ∈ rest, fs.isFile p = false :=
          fun p hp => hfile p (List.mem_cons_of_mem _ hp)
        obtain ⟨fs2, hfold, hdirs, hpres⟩ := ih fs hfile1
        refine ⟨fs2, ?_, ?_, ?_⟩
        · rw [List.foldlM_cons, hl]
          exact hfold
        · intro p hp
          rcases List.mem_cons.mp hp with hpp | hpp
          · subst hpp
            rcases hpres p with hq | ⟨hq, _⟩
            · rw [isDir_iff_lookup, hq, hl]
            · rw [isDir_iff_lookup, hq]
          · exact hdirs p hpp
        · intro r
          rcases hpres r with hq | ⟨hq, hmem⟩
          · exact Or.inl hq
          · exact Or.inr ⟨hq, List.mem_cons_of_mem _ hmem⟩

theorem not_mem_prefixes_dropLast (q : PathC) : q ∉ pathPrefixes q.dropLast := by
  intro hq
  simp only [pathPrefixes, List.mem_map, List.mem_range] at hq
  obtain ⟨i, hi, hq⟩ := hq
  rw [List.length_dropLast] at hi
  have hlen := congrArg List.length hq
  rw [List.length_take, List.length_dropLast] at hlen
  have h1 : q.length ≤ q.length - 1 := by
    calc q.length = min (i + 1) (q.length - 1) := hlen.symm
    _ ≤ q.length - 1 := min_le_right _ _
  omega

/-- C9 (amended): for an in-sandbox path that does not resolve to an
existing directory and whose ancestors are not existing files,
`_write_file` creates the missing parent directories, a subsequent
`_read_file` of the same path returns exactly the written content, and
the success message reports `len(content)` — the character count of the
content, which equals the byte count only for single-byte text. -/
theorem write_file_roundtrip (root : PathC) (fs : Fs) (pstr : PathC)
    (content : String) (q : PathC)
    (hsafe : safe_path root pstr = .ok q)
    (hparents : ∀ pre ∈ pathPrefixes q.dropLast, fs.isFile pre = false)
    (hnotdir : ¬ fs.lookup q = some .dir) :
    (write_file root fs pstr content).2 =
      .ok ("Successfully wrote " ++ toString content.length ++ " bytes to "
        ++ joinPath pstr) ∧
    read_file root (write_file root fs pstr content).1 pstr = .ok content ∧
    (∀ pre ∈ pathPrefixes q.dropLast,
      (write_file root fs pstr content).1.isDir pre = true) := by
  obtain ⟨fs2, hfold, hdirs, hpres⟩ :=
    mkdirFold_spec (pathPrefixes q.dropLast) fs hparents
  have hmk : mkdirParents fs q.dropLast = .ok fs2 := hfold
  have hq2 : ¬ fs2.lookup q = some .dir := by
    rcases hpres q with hq | ⟨_, hmem⟩
    · rw [hq]; exact hnotdir
    · exact absurd hmem (not_mem_prefixes_dropLast q)
  have hw : write_file root fs pstr content
      = (fs2.setNode q (.file content),
         .ok ("Successfully wrote " ++ toString content.length ++ " bytes to "
           ++ joinPath pstr)) := by
    simp only [write_file, hsafe, hmk]
  refine ⟨by rw [hw], ?_, ?_⟩
  · rw [hw]
    unfold read_file
    rw [hsafe]
    have hlq : Fs.lookup (fs2.setNode q (.file content)) q = some (.file content) := by
      rw [lookup_setNode, if_pos rfl]
    simp [Fs.pathExists, hlq]
  · intro pre hpre
    rw [hw]
    have hne : ¬ pre = q := by
      intro hc
      exact not_mem_prefixes_dropLast q (hc ▸ hpre)
    rw [isDir_iff_lookup, lookup_setNode, if_neg hne]
    exact (isDir_iff_lookup fs2 pre).mp (hdirs pre hpre)

/-- C9 counterexample: the success message reports `len(content)`, the
character count — for the one-character content `é` the file's UTF-8
encoding is 2 bytes, yet the message says 1 byte was written. -/
theorem write_file_bytes_counterexample :
    (write_file ["r"] [(["r"], FsNode.dir)] ["a.txt"] "é").2 =
      .ok "Successfully wrote 1 bytes to a.txt" ∧
    String.utf8ByteSize "é" = 2 := by
  constructor <;> decide

theorem write_file_roundtrip_witness :
    (write_file ["r"] [(["r"], FsNode.dir)] ["a", "b.txt"] "hello").2 =
      .ok "Successfully wrote 5 bytes to a/b.txt" ∧
    read_file ["r"] (write_file ["r"] [(["r"], FsNode.dir)] ["a", "b.txt"] "hello").1
      ["a", "b.txt"] = .ok "hello" ∧
    (∀ pre ∈ pathPrefixes (["r", "a", "b.txt"] : PathC).dropLast,
      (write_file ["r"] [(["r"], FsNode.dir)] ["a", "b.txt"] "hello").1.isDir pre = true) :=
  write_file_roundtrip ["r"] [(["r"], FsNode.dir)] ["a", "b.txt"] "hello"
    ["r", "a", "b.txt"] (by decide) (by decide) (by decide)

theorem runTurn_eq_turnAppends (cfg : SessionCfg) (finalR : Resp)
    (hfin : finalR.stopReason ≠ "tool_use" ∨ toolUsesOf finalR.content = []) :
    ∀ (rounds : List Resp) (messages : List Message) (st : TurnState),
      (∀ r ∈ rounds, r.stopReason = "tool_use" ∧ toolUsesOf r.content ≠ []) →
      runTurn cfg messages (rounds.map some ++ [some finalR]) st =
        messages ++ turnAppends cfg rounds finalR st := by
  intro rounds
  induction rounds with
  | nil =>
    intro messages st _
    show runTurn cfg messages (some finalR :: []) st = _
    rw [runTurn, if_pos hfin]
    rfl
  | cons r rs ih =>
    intro messages st hall
    have hr := hall r (List.mem_cons_self _ _)
    have hcond : ¬ (r.stopReason ≠ "tool_use" ∨ toolUsesOf r.content = []) :=
      fun h => h.elim (fun hne => hne hr.1) (fun he => hr.2 he)
    show runTurn cfg messages
      (some r :: (rs.map some ++ [some finalR])) st = _
    rw [runTurn, if_neg hcond]
    rw [ih _ _ (fun x hx => hall x (List.mem_cons_of_mem _ hx))]
    simp [turnAppends, List.append_assoc]

theorem execTools_map_resultId (cfg : SessionCfg) :
    ∀ (tus : List (String × String × ToolInput)) (st : TurnState),
      ((execTools cfg st tus).2).map blockResultId =
        tus.map (fun tu => some tu.1) := by
  intro tus
  induction tus with
  | nil => intro st; rfl
  | cons tu rest ih =>
    intro st
    simp only [execTools, List.map_cons]
    rw [ih]
    rfl

theorem serialize_content_no_toolResult :
    ∀ (bs : List RespBlock), ∀ b ∈ serialize_content bs, blockResultId b = none := by
  intro bs
  induction bs with
  | nil => intro b hb; cases hb
  | cons x rest ih =>
    intro b hb
    cases x with
    | thinking t sig =>
      rw [serialize_content] at hb
      rcases List.mem_cons.mp hb with rfl | hb
      · rfl
      · exact ih b hb
    | text t =>
      rw [serialize_content] at hb
      rcases List.mem_cons.mp hb with rfl | hb
      · rfl
      · exact ih b hb
    | toolUse id name input =>
      rw [serialize_content] at hb
      rcases List.mem_cons.mp hb with rfl | hb
      · rfl
      · exact ih b hb
    | other =>
      rw [serialize_content] at hb
      exact ih b hb

theorem serialized_msg_not_TR (bs : List RespBlock) :
    isToolResultMsg ⟨"assistant", .blocks (serialize_content bs)⟩ = false := by
  simp only [isToolResultMsg]
  rw [List.any_eq_false]
  intro b hb
  rw [serialize_content_no_toolResult bs b hb]
  simp

theorem results_msg_isTR (cfg : SessionCfg) (st : TurnState)
    (tus : List (String × String × ToolInput)) (hne : tus ≠ []) :
    isToolResultMsg ⟨"user", .blocks (execTools cfg st tus).2⟩ = true := by
  have hmap := execTools_map_resultId cfg tus st
  cases htus : tus with
  | nil => exact absurd htus hne
  | cons tu rest =>
    subst htus
    cases hres : (execTools cfg st (tu :: rest)).2 with
    | nil =>
      rw [hres] at hmap
      simp at hmap
    | cons b bs =>
      rw [hres] at hmap
      simp only [List.map_cons, List.cons.injEq] at hmap
      simp [isToolResultMsg, hres, List.any_cons, hmap.1]

theorem countRole_append (role : String) (l1 l2 : List Message) :
    countRole role (l1 ++ l2) = countRole role l1 + countRole role l2 := by
  simp [countRole, List.filter_append]

theorem countTR_append (l1 l2 : List Message) :
    countToolResultMsgs (l1 ++ l2) =
      countToolResultMsgs l1 + countToolResultMsgs l2 := by
  simp [countToolResultMsgs, List.filter_append]

theorem turnAppends_counts (cfg : SessionCfg) (finalR : Resp)
    (hf : finalR.stopReason ≠ "tool_use") :
    ∀ (rounds : List Resp) (st : TurnState),
      (∀ r ∈ rounds, toolUsesOf r.content ≠ []) →
      countRole "assistant" (turnAppends cfg rounds finalR st) = rounds.length + 1 ∧
      countToolResultMsgs (turnAppends cfg rounds finalR st) = rounds.length := by
  intro rounds
  induction rounds with
  | nil =>
    intro st _
    constructor
    · simp [turnAppends, countRole]
    · simp [turnAppends, countToolResultMsgs, isToolResultMsg, finalContent, hf]
  | cons r rs ih =>
    intro st hall
    obtain ⟨ihc, ihtr⟩ := ih (execTools cfg st (toolUsesOf r.content)).1
      (fun x hx => hall x (List.mem_cons_of_mem _ hx))
    constructor
    · simp only [turnAppends, countRole, List.filter_cons]
      simp only [countRole] at ihc
      simp [ihc]
    · simp only [turnAppends, countToolResultMsgs, List.filter_cons,
        serialized_msg_not_TR,
        results_msg_isTR cfg st _ (hall r (List.mem_cons_self _ _))]
      simp only [countToolResultMsgs] at ihtr
      simp [ihtr]

theorem turnAppends_eq_zip (cfg : SessionCfg) (finalR : Resp) :
    ∀ (rounds : List Resp) (st : TurnState),
      turnAppends cfg rounds finalR st =
        (List.zipWith (fun (r : Resp) (res : List Block) =>
            [(⟨"assistant", .blocks (serialize_content r.content)⟩ : Message),
             ⟨"user", .blocks res⟩]) rounds (roundResults cfg st rounds)).flatten
          ++ [⟨"assistant", finalContent finalR⟩] := by
  intro rounds
  induction rounds with
  | nil => intro st; rfl
  | cons r rs ih =>
    intro st
    simp only [turnAppends, roundResults, List.zipWith_cons_cons, List.flatten_cons]
    rw [ih]
    simp

theorem roundResults_length (cfg : SessionCfg) :
    ∀ (rounds : List Resp) (st : TurnState),
      (roundResults cfg st rounds).length = rounds.length := by
  intro rounds
  induction rounds with
  | nil => intro st; rfl
  | cons r rs ih =>
    intro st
    simp only [roundResults, List.length_cons, ih]

theorem roundResults_ids (cfg : SessionCfg) :
    ∀ (rounds : List Resp) (st : TurnState),
      ∀ p ∈ rounds.zip (roundResults cfg st rounds),
        p.2.map blockResultId =
          (toolUsesOf p.1.content).map (fun tu => some tu.1) := by
  intro rounds
  induction rounds with
  | nil => intro st p hp; cases hp
  | cons r rs ih =>
    intro st p hp
    simp only [roundResults, List.zip_cons_cons] at hp
    rcases List.mem_cons.mp hp with rfl | hp
    · exact execTools_map_resultId cfg _ st
    · exact ih _ p hp

/-- C4: a turn with exactly N tool rounds followed by a non-tool stop
appends exactly: the user message, then per round the assistant message
holding the serialized blocks followed by one user message whose blocks
are one `tool_result` per `tool_use` with matching ids in emission
order, then one final plain-text assistant message — N+1 assistant
messages and N tool-result-bearing messages in total. -/
theorem send_message_turn_shape (cfg : SessionCfg) (messages : List Message)
    (user_input : String) (rounds : List Resp) (finalR : Resp) (st : TurnState)
    (hr : ∀ r ∈ rounds, r.stopReason = "tool_use" ∧ toolUsesOf r.content ≠ [])
    (hf : finalR.stopReason ≠ "tool_use") :
    ∃ results : List (List Block),
      results.length = rounds.length ∧
      send_message cfg messages user_input (rounds.map some ++ [some finalR]) st =
        messages ++ ⟨"user", .str user_input⟩ ::
          ((List.zipWith (fun (r : Resp) (res : List Block) =>
              [(⟨"assistant", .blocks (serialize_content r.content)⟩ : Message),
               ⟨"user", .blocks res⟩]) rounds results).flatten
            ++ [⟨"assistant", .str (responseText finalR.content)⟩]) ∧
      (∀ p ∈ rounds.zip results,
        p.2.map blockResultId =
          (toolUsesOf p.1.content).map (fun tu => some tu.1)) ∧
      countRole "assistant"
        ((send_message cfg messages user_input
          (rounds.map some ++ [some finalR]) st).drop messages.length)
        = rounds.length + 1 ∧
      countToolResultMsgs
        ((send_message cfg messages user_input
          (rounds.map some ++ [some finalR]) st).drop messages.length)
        = rounds.length := by
  have hmaster : send_message cfg messages user_input
      (rounds.map some ++ [some finalR]) st =
      messages ++ ⟨"user", .str user_input⟩ :: turnAppends cfg rounds finalR st := by
    unfold send_message
    rw [runTurn_eq_turnAppends cfg finalR (Or.inl hf) rounds _ st hr]
    simp
  have hfinal : finalContent finalR = .str (responseText finalR.content) := by
    simp [finalContent, hf]
  have hdrop : (send_message cfg messages user_input
      (rounds.map some ++ [some finalR]) st).drop messages.length =
      ⟨"user", .str user_input⟩ :: turnAppends cfg rounds finalR st := by
    rw [hmaster, List.drop_left]
  obtain ⟨hcount, htr⟩ := turnAppends_counts cfg finalR hf rounds st
    (fun x hx => (hr x hx).2)
  refine ⟨roundResults cfg st rounds, roundResults_length cfg rounds st, ?_, ?_, ?_, ?_⟩
  · rw [hmaster, turnAppends_eq_zip, hfinal]
  · exact roundResults_ids cfg rounds st
  · rw [hdrop]
    simp only [countRole, List.filter_cons]
    simp only [countRole] at hcount
    simp [hcount]
  · rw [hdrop]
    simp only [countToolResultMsgs, List.filter_cons]
    simp only [countToolResultMsgs] at htr
    simp [isToolResultMsg, htr]

theorem send_message_turn_shape_witness :
    ∃ results : List (List Block),
      results.length = 1 ∧
      send_message ⟨none⟩ [] "go"
          ([(⟨"tool_use", [.toolUse "t1" "read_file" [("path", "x")]]⟩ : Resp)].map some
            ++ [some ⟨"end_turn", [.text "done"]⟩]) initialState =
        [] ++ ⟨"user", .str "go"⟩ ::
          ((List.zipWith (fun (r : Resp) (res : List Block) =>
              [(⟨"assistant", .blocks (serialize_content r.content)⟩ : Message),
               ⟨"user", .blocks res⟩])
            [⟨"tool_use", [.toolUse "t1" "read_file" [("path", "x")]]⟩] results).flatten
            ++ [⟨"assistant", .str (responseText [RespBlock.text "done"])⟩]) ∧
      (∀ p ∈ ([(⟨"tool_use", [.toolUse "t1" "read_file" [("path", "x")]]⟩ : Resp)]).zip results,
        p.2.map blockResultId =
          (toolUsesOf p.1.content).map (fun tu => some tu.1)) ∧
      countRole "assistant"
        ((send_message ⟨none⟩ [] "go"
          ([(⟨"tool_use", [.toolUse "t1" "read_file" [("path", "x")]]⟩ : Resp)].map some
            ++ [some ⟨"end_turn", [.text "done"]⟩]) initialState).drop 0) = 2 ∧
      countToolResultMsgs
        ((send_message ⟨none⟩ [] "go"
          ([(⟨"tool_use", [.toolUse "t1" "read_file" [("path", "x")]]⟩ : Resp)].map some
            ++ [some ⟨"end_turn", [.text "done"]⟩]) initialState).drop 0) = 1 :=
  send_message_turn_shape ⟨none⟩ [] "go"
    [⟨"tool_use", [.toolUse "t1" "read_file" [("path", "x")]]⟩]
    ⟨"end_turn", [.text "done"]⟩ initialState (by decide) (by decide)

/-- C1: evaluation at the failing input.  A turn that completed one
tool round and then hit a transport failure pops only the trailing
tool-result user message: the conversation is left ending in the
partial assistant tool-use message, not in the message that preceded
the call, and the user message appended at the start of the turn is
still present. -/
theorem send_message_rollback_partial :
    send_message ⟨none⟩ [⟨"assistant", .str "prev"⟩] "go"
        [some ⟨"tool_use", [.toolUse "t1" "read_file" [("path", "x")]]⟩, none]
        initialState =
      [⟨"assistant", .str "prev"⟩, ⟨"user", .str "go"⟩,
       ⟨"assistant", .blocks [⟨.toolUse "t1" "read_file" [("path", "x")], none⟩]⟩] ∧
    (send_message ⟨none⟩ [⟨"assistant", .str "prev"⟩] "go"
        [some ⟨"tool_use", [.toolUse "t1" "read_file" [("path", "x")]]⟩, none]
        initialState).getLast? ≠ some ⟨"assistant", .str "prev"⟩ := by
  constructor <;> decide

/-- C8 counterexample: a final response carrying a thinking block and a
non-tool stop reason is stored as plain accumulated text — the thinking
block (text and signature) is absent from the appended assistant
message, although the claim demands preservation for every response of
the turn including the final one. -/
theorem thinking_dropped_counterexample :
    send_message ⟨none⟩ [] "q"
        [some ⟨"end_turn", [.thinking "deep" (some "sig"), .text "hi"]⟩]
        initialState =
      [⟨"user", .str "q"⟩, ⟨"assistant", .str "hi"⟩] ∧
    msgThinking (Content.str "hi") = [] ∧
    thinkingOfResp [.thinking "deep" (some "sig"), .text "hi"] =
      [("deep", some "sig")] := by
  refine ⟨by decide, by decide, by decide⟩

/-- C8 (amended): `_serialize_content` preserves thinking blocks (text
and signature) byte-for-byte in order, so every assistant message
stored in structured form — every tool-round message and a final
response whose stop reason is `tool_use` — retains them; but the stored
assistant content is plain text exactly when the final response's stop
reason is not `tool_use`, and then thinking blocks are not stored. -/
theorem thinking_preservation_amended :
    (∀ bs : List RespBlock,
      thinkingOfBlocks (serialize_content bs) = thinkingOfResp bs) ∧
    (∀ (cfg : SessionCfg) (messages : List Message) (user_input : String)
        (rounds : List Resp) (finalR : Resp) (st : TurnState),
      (∀ r ∈ rounds, r.stopReason = "tool_use" ∧ toolUsesOf r.content ≠ []) →
      (finalR.stopReason ≠ "tool_use" ∨ toolUsesOf finalR.content = []) →
      send_message cfg messages user_input (rounds.map some ++ [some finalR]) st =
        messages ++ ⟨"user", .str user_input⟩ :: turnAppends cfg rounds finalR st) ∧
    (∀ (cfg : SessionCfg) (rounds : List Resp) (finalR : Resp) (st : TurnState),
      ∀ m ∈ turnAppends cfg rounds finalR st, m.role = "assistant" →
        (∃ r ∈ rounds, m.content = .blocks (serialize_content r.content)) ∨
          m.content = finalContent finalR) ∧
    (∀ resp : Resp, (∃ s, finalContent resp = .str s) ↔
      resp.stopReason ≠ "tool_use") ∧
    (∀ resp : Resp, resp.stopReason = "tool_use" →
      msgThinking (finalContent resp) = thinkingOfResp resp.content) := by
  have hser : ∀ bs : List RespBlock,
      thinkingOfBlocks (serialize_content bs) = thinkingOfResp bs := by
    intro bs
    induction bs with
    | nil => rfl
    | cons x rest ih =>
      cases x <;> simp only [serialize_content, thinkingOfBlocks, thinkingOfResp, ih]
  refine ⟨hser, ?_, ?_, ?_, ?_⟩
  · intro cfg messages user_input rounds finalR st hr hfin
    unfold send_message
    rw [runTurn_eq_turnAppends cfg finalR hfin rounds _ st hr]
    simp
  · intro cfg rounds
    induction rounds with
    | nil =>
      intro finalR st m hm _
      rcases List.mem_cons.mp hm with rfl | hm
      · exact Or.inr rfl
      · cases hm
    | cons r rs ih =>
      intro finalR st m hm hrole
      simp only [turnAppends] at hm
      rcases List.mem_cons.mp hm with rfl | hm
      · exact Or.inl ⟨r, List.mem_cons_self _ _, rfl⟩
      rcases List.mem_cons.mp hm with rfl | hm
      · exact absurd hrole (by intro hc; simp at hc)
      · rcases ih finalR _ m hm hrole with ⟨r2, hr2, hc⟩ | hc
        · exact Or.inl ⟨r2, List.mem_cons_of_mem _ hr2, hc⟩
        · exact Or.inr hc
  · intro resp
    by_cases h : resp.stopReason = "tool_use"
    · simp [finalContent, h]
    · simp [finalContent, h]
  · intro resp h
    simp only [finalContent, if_pos h, msgThinking]
    exact hser resp.content

theorem thinking_preservation_amended_witness :
    send_message ⟨none⟩ [] "q"
        ([(⟨"tool_use", [.toolUse "t" "x" []]⟩ : Resp)].map some
          ++ [some ⟨"end_turn", [.text "y"]⟩]) initialState =
      [] ++ ⟨"user", .str "q"⟩ ::
        turnAppends ⟨none⟩ [⟨"tool_use", [.toolUse "t" "x" []]⟩]
          ⟨"end_turn", [.text "y"]⟩ initialState :=
  thinking_preservation_amended.2.1 ⟨none⟩ [] "q"
    [⟨"tool_use", [.toolUse "t" "x" []]⟩] ⟨"end_turn", [.text "y"]⟩
    initialState (by decide) (by decide)

theorem heap_extends (H : Heap) (l : List HObj) : H <+: H ++ l := ⟨l, rfl⟩

theorem get?_append_add (H : Heap) (l : List HObj) (k : Nat) :
    (H ++ l).get? (H.length + k) = l.get? k := by
  rw [List.get?_append_right (by omega)]
  congr 1
  omega

theorem get?_append_self (H : Heap) (l : List HObj) :
    (H ++ l).get? H.length = l.get? 0 := by
  have h := get?_append_add H l 0
  simpa using h

theorem get?_stable {H H2 : Heap} (hpre : H <+: H2) {a : Nat} {o : HObj}
    (h : H.get? a = some o) : H2.get? a = some o := by
  obtain ⟨t, rfl⟩ := hpre
  have hlt : a < H.length := by
    by_contra hge
    rw [List.get?_eq_none.mpr (by omega)] at h
    cases h
  rw [List.get?_append hlt]
  exact h

theorem readMsgs_stable {H H2 : Heap} (hpre : H <+: H2) {a : Nat}
    {x : List Nat} (h : readMsgs H a = some x) : readMsgs H2 a = some x := by
  unfold readMsgs at h ⊢
  cases hg : H.get? a with
  | none => rw [hg] at h; cases h
  | some o =>
    rw [hg] at h
    rw [get?_stable hpre hg]
    exact h

theorem readMsg_stable {H H2 : Heap} (hpre : H <+: H2) {a : Nat}
    {x : String × HContent} (h : readMsg H a = some x) : readMsg H2 a = some x := by
  unfold readMsg at h ⊢
  cases hg : H.get? a with
  | none => rw [hg] at h; cases h
  | some o =>
    rw [hg] at h
    rw [get?_stable hpre hg]
    exact h

theorem readBlocks_stable {H H2 : Heap} (hpre : H <+: H2) {a : Nat}
    {x : List Nat} (h : readBlocks H a = some x) : readBlocks H2 a = some x := by
  unfold readBlocks at h ⊢
  cases hg : H.get? a with
  | none => rw [hg] at h; cases h
  | some o =>
    rw [hg] at h
    rw [get?_stable hpre hg]
    exact h

theorem readBlock_stable {H H2 : Heap} (hpre : H <+: H2) {a : Nat}
    {x : Block} (h : readBlock H a = some x) : readBlock H2 a = some x := by
  unfold readBlock at h ⊢
  cases hg : H.get? a with
  | none => rw [hg] at h; cases h
  | some o =>
    rw [hg] at h
    rw [get?_stable hpre hg]
    exact h

theorem denoteBlockList_stable {H H2 : Heap} (hpre : H <+: H2) :
    ∀ {refs : List Nat} {bs : List Block},
      denoteBlockList H refs = some bs → denoteBlockList H2 refs = some bs := by
  intro refs
  induction refs with
  | nil => intro bs h; exact h
  | cons r rs ih =>
    intro bs h
    unfold denoteBlockList at h ⊢
    cases hb : readBlock H r with
    | none => rw [hb] at h; cases h
    | some b =>
      rw [hb] at h
      cases hl : denoteBlockList H rs with
      | none => rw [hl] at h; cases h
      | some xs =>
        rw [hl] at h
        rw [readBlock_stable hpre hb, ih hl]
        exact h

theorem denoteContent_stable {H H2 : Heap} (hpre : H <+: H2) :
    ∀ {c : HContent} {v : Content},
      denoteContent H c = some v → denoteContent H2 c = some v := by
  intro c v h
  cases c with
  | str s => exact h
  | ref l =>
    simp only [denoteContent] at h ⊢
    cases hb : readBlocks H l with
    | none => simp only [hb] at h; cases h
    | some refs =>
      simp only [hb] at h
      cases hl : denoteBlockList H refs with
      | none => simp only [hl, Option.map_none'] at h; cases h
      | some bs =>
        simp only [hl] at h
        simp only [readBlocks_stable hpre hb, denoteBlockList_stable hpre hl]
        exact h

theorem denoteMsg_stable {H H2 : Heap} (hpre : H <+: H2) {a : Nat}
    {m : Message} (h : denoteMsg H a = some m) : denoteMsg H2 a = some m := by
  unfold denoteMsg at h ⊢
  cases hr : readMsg H a with
  | none => simp only [hr] at h; cases h
  | some rc =>
    simp only [hr] at h
    cases hc : denoteContent H rc.2 with
    | none => simp only [hc, Option.map_none'] at h; cases h
    | some v =>
      simp only [hc] at h
      simp only [readMsg_stable hpre hr, denoteContent_stable hpre hc]
      exact h

theorem denoteMsgList_stable {H H2 : Heap} (hpre : H <+: H2) :
    ∀ {refs : List Nat} {ms : List Message},
      denoteMsgList H refs = some ms → denoteMsgList H2 refs = some ms := by
  intro refs
  induction refs with
  | nil => intro ms h; exact h
  | cons a as ih =>
    intro ms h
    unfold denoteMsgList at h ⊢
    cases hm : denoteMsg H a with
    | none => rw [hm] at h; cases h
    | some m =>
      rw [hm] at h
      cases hl : denoteMsgList H as with
      | none => rw [hl] at h; cases h
      | some xs =>
        rw [hl] at h
        rw [denoteMsg_stable hpre hm, ih hl]
        exact h

theorem denoteConv_stable {H H2 : Heap} (hpre : H <+: H2) {a : Nat}
    {ms : List Message} (h : denoteConv H a = some ms) :
    denoteConv H2 a = some ms := by
  unfold denoteConv at h ⊢
  cases hr : readMsgs H a with
  | none => rw [hr] at h; cases h
  | some refs =>
    rw [hr] at h
    rw [readMsgs_stable hpre hr]
    exact denoteMsgList_stable hpre h

theorem denoteMsgList_length (H : Heap) :
    ∀ {refs : List Nat} {ms : List Message},
      denoteMsgList H refs = some ms → refs.length = ms.length := by
  intro refs
  induction refs with
  | nil => intro ms h; cases h; rfl
  | cons a as ih =>
    intro ms h
    unfold denoteMsgList at h
    cases hm : denoteMsg H a with
    | none => rw [hm] at h; cases h
    | some m =>
      rw [hm] at h
      cases hl : denoteMsgList H as with
      | none => rw [hl] at h; cases h
      | some xs =>
        rw [hl] at h
        cases h
        simp [ih hl]

theorem denoteBlockList_concat_inv (H : Heap) :
    ∀ (l : List Nat) (x : Nat) (bs : List Block),
      denoteBlockList H (l ++ [x]) = some bs →
      ∃ bs1 b, denoteBlockList H l = some bs1 ∧ readBlock H x = some b ∧
        bs = bs1 ++ [b] := by
  intro l
  induction l with
  | nil =>
    intro x bs h
    rw [List.nil_append] at h
    simp only [denoteBlockList] at h
    cases hb : readBlock H x with
    | none => simp only [hb] at h; cases h
    | some b =>
      simp only [hb] at h
      cases h
      exact ⟨[], b, rfl, rfl, rfl⟩
  | cons r rs ih =>
    intro x bs h
    rw [List.cons_append] at h
    simp only [denoteBlockList] at h
    cases hb : readBlock H r with
    | none => simp only [hb] at h; cases h
    | some b =>
      simp only [hb] at h
      cases hl : denoteBlockList H (rs ++ [x]) with
      | none =>
        simp only [hl] at h
        cases h
      | some xs =>
        simp only [hl] at h
        cases h
        obtain ⟨bs1, b2, hbs1, hb2, rfl⟩ := ih x xs hl
        refine ⟨b :: bs1, b2, ?_, hb2, rfl⟩
        simp only [denoteBlockList, hb, hbs1]

theorem denoteBlockList_concat (H : Heap) :
    ∀ (l : List Nat) (x : Nat) (bs1 : List Block) (b : Block),
      denoteBlockList H l = some bs1 → readBlock H x = some b →
      denoteBlockList H (l ++ [x]) = some (bs1 ++ [b]) := by
  intro l
  induction l with
  | nil =>
    intro x bs1 b hl hb
    cases hl
    simp only [List.nil_append, denoteBlockList, hb]
  | cons r rs ih =>
    intro x bs1 b hl hb
    simp only [denoteBlockList] at hl
    cases hr : readBlock H r with
    | none => simp only [hr] at hl; cases hl
    | some br =>
      simp only [hr] at hl
      cases hrs : denoteBlockList H rs with
      | none => simp only [hrs] at hl; cases hl
      | some xs =>
        simp only [hrs] at hl
        cases hl
        rw [show ((r :: rs) ++ [x] : List Nat) = r :: (rs ++ [x]) from rfl]
        simp only [denoteBlockList, hr, ih x xs b hrs hb, List.cons_append]

theorem anyTextH_spec (H : Heap) :
    ∀ (refs : List Nat) (bs : List Block),
      denoteBlockList H refs = some bs →
      anyTextH H refs = some (bs.any (fun b =>
        match b.payload with
        | .text _ => true
        | _ => false)) := by
  intro refs
  induction refs with
  | nil =>
    intro bs h
    cases h
    rfl
  | cons r rs ih =>
    intro bs h
    simp only [denoteBlockList] at h
    cases hb : readBlock H r with
    | none => simp only [hb] at h; cases h
    | some b =>
      simp only [hb] at h
      cases hl : denoteBlockList H rs with
      | none => simp only [hl] at h; cases h
      | some xs =>
        simp only [hl] at h
        cases h
        simp only [anyTextH, hb]
        cases hp : b.payload with
        | text t => simp [List.any_cons, hp]
        | thinking t sig => simp [List.any_cons, hp, ih xs hl]
        | toolUse id name input => simp [List.any_cons, hp, ih xs hl]
        | toolResult tid c => simp [List.any_cons, hp, ih xs hl]

theorem isHumanH_spec (H : Heap) (a : Nat) (m : Message)
    (hm : denoteMsg H a = some m) :
    isHumanH H a = some (is_human_message m) := by
  unfold denoteMsg at hm
  cases hr : readMsg H a with
  | none => simp only [hr] at hm; cases hm
  | some rc =>
    simp only [hr] at hm
    obtain ⟨role, c⟩ := rc
    cases c with
    | str s =>
      simp only [denoteContent] at hm
      cases hm
      simp only [isHumanH, hr]
      by_cases hrole : role = "user"
      · simp [hrole, is_human_message]
      · simp [hrole, is_human_message]
    | ref l =>
      simp only [denoteContent] at hm
      cases hb : readBlocks H l with
      | none => simp only [hb] at hm; cases hm
      | some refs =>
        simp only [hb] at hm
        cases hl : denoteBlockList H refs with
        | none => simp only [hl, Option.map_none'] at hm; cases hm
        | some bs =>
          simp only [hl] at hm
          cases hm
          simp only [isHumanH, hr, hb]
          by_cases hrole : role = "user"
          · simp only [hrole, if_pos, if_true]
            rw [anyTextH_spec H refs bs hl]
            simp [is_human_message]
          · simp [hrole, is_human_message]

theorem humanIndicesH_spec (H : Heap) :
    ∀ (refs : List Nat) (ms : List Message) (n : Nat),
      denoteMsgList H refs = some ms →
      humanIndicesH H n refs =
        some (((ms.enumFrom n).filter (fun p => is_human_message p.2)).map
          (fun p => p.1)) := by
  intro refs
  induction refs with
  | nil =>
    intro ms n h
    cases h
    rfl
  | cons a as ih =>
    intro ms n h
    simp only [denoteMsgList] at h
    cases hm : denoteMsg H a with
    | none => simp only [hm] at h; cases h
    | some m =>
      simp only [hm] at h
      cases hl : denoteMsgList H as with
      | none => simp only [hl] at h; cases h
      | some xs =>
        simp only [hl] at h
        cases h
        simp only [humanIndicesH, isHumanH_spec H a m hm, ih xs (n + 1) hl]
        simp only [List.enumFrom, List.filter_cons]
        by_cases hh : is_human_message m
        · simp [hh]
        · simp [hh]

theorem getLast?_none_eq_nil {α : Type} {l : List α} (h : l.getLast? = none) :
    l = [] := by
  cases l with
  | nil => rfl
  | cons x xs =>
    have hsome : ((x :: xs).getLast?).isSome := List.getLast?_isSome.mpr (by simp)
    rw [h] at hsome
    cases hsome

theorem eq_dropLast_concat {α : Type} :
    ∀ {l : List α} {x : α}, l.getLast? = some x → l = l.dropLast ++ [x] := by
  intro l
  induction l with
  | nil => intro x h; cases h
  | cons a as ih =>
    intro x h
    cases as with
    | nil =>
      rw [List.getLast?_singleton] at h
      cases h
      rfl
    | cons b bs =>
      rw [List.getLast?_cons_cons] at h
      have hrec := ih h
      calc a :: b :: bs = a :: ((b :: bs).dropLast ++ [x]) := by rw [← hrec]
      _ = (a :: b :: bs).dropLast ++ [x] := by simp

theorem prepareMsgH_spec (H : Heap) (cc : CacheControl) (ci : Int) (i a : Nat)
    (m : Message) (hm : denoteMsg H a = some m) :
    ∃ H1 r, prepareMsgH H cc ci i a = some (H1, r) ∧ H <+: H1 ∧
      denoteMsg H1 r = some (prepCore cc ci i m) := by
  unfold denoteMsg at hm
  cases hr : readMsg H a with
  | none => simp only [hr] at hm; cases hm
  | some rc =>
    simp only [hr] at hm
    obtain ⟨role, c⟩ := rc
    cases c with
    | str s =>
      simp only [denoteContent] at hm
      cases hm
      refine ⟨H ++ [.hBlock ⟨.text s, if (i : Int) = ci then some cc else none⟩,
                    .hBlocks [H.length], .hMsg role (.ref (H.length + 1))],
              H.length + 2, ?_, heap_extends H _, ?_⟩
      · simp only [prepareMsgH, hr]
      · have h3 : readMsg
            (H ++ [.hBlock ⟨.text s, if (i : Int) = ci then some cc else none⟩,
                   .hBlocks [H.length], .hMsg role (.ref (H.length + 1))])
            (H.length + 2) = some (role, .ref (H.length + 1)) := by
          unfold readMsg
          rw [get?_append_add]
          rfl
        have h2 : readBlocks
            (H ++ [.hBlock ⟨.text s, if (i : Int) = ci then some cc else none⟩,
                   .hBlocks [H.length], .hMsg role (.ref (H.length + 1))])
            (H.length + 1) = some [H.length] := by
          unfold readBlocks
          rw [get?_append_add]
          rfl
        have h1 : readBlock
            (H ++ [.hBlock ⟨.text s, if (i : Int) = ci then some cc else none⟩,
                   .hBlocks [H.length], .hMsg role (.ref (H.length + 1))])
            H.length =
            some ⟨.text s, if (i : Int) = ci then some cc else none⟩ := by
          unfold readBlock
          rw [get?_append_self]
          rfl
        unfold denoteMsg
        rw [h3]
        simp only [denoteContent, h2, denoteBlockList, h1]
        by_cases hci : (i : Int) = ci <;> simp [prepCore, hci]
    | ref lref =>
      simp only [denoteContent] at hm
      cases hb : readBlocks H lref with
      | none => simp only [hb] at hm; cases hm
      | some refs =>
        simp only [hb] at hm
        cases hl : denoteBlockList H refs with
        | none => simp only [hl, Option.map_none'] at hm; cases hm
        | some bs =>
          simp only [hl] at hm
          cases hm
          by_cases hci : (i : Int) = ci
          · cases hgl : refs.getLast? with
            | none =>
              have hrefs : refs = [] := getLast?_none_eq_nil hgl
              subst hrefs
              cases hl
              refine ⟨H ++ [.hBlocks [], .hMsg role (.ref H.length)],
                      H.length + 1, ?_, heap_extends H _, ?_⟩
              · simp only [prepareMsgH, hr, if_pos hci, hb]
                rfl
              · have h3 : readMsg (H ++ [.hBlocks [], .hMsg role (.ref H.length)])
                    (H.length + 1) = some (role, .ref H.length) := by
                  unfold readMsg
                  rw [get?_append_add]
                  rfl
                have h2 : readBlocks (H ++ [.hBlocks [], .hMsg role (.ref H.length)])
                    H.length = some [] := by
                  unfold readBlocks
                  rw [get?_append_self]
                  rfl
                unfold denoteMsg
                rw [h3]
                simp only [denoteContent, h2, denoteBlockList]
                simp [prepCore, hci]
            | some lastRef =>
              have hrefs := eq_dropLast_concat hgl
              obtain ⟨bs1, b, hbs1, hbread, hbs⟩ :=
                denoteBlockList_concat_inv H refs.dropLast lastRef bs
                  (by rw [← hrefs]; exact hl)
              subst hbs
              refine ⟨H ++ [.hBlock { b with cacheControl := some cc },
                            .hBlocks (refs.dropLast ++ [H.length]),
                            .hMsg role (.ref (H.length + 1))],
                      H.length + 2, ?_, heap_extends H _, ?_⟩
              · simp only [prepareMsgH, hr, if_pos hci, hb, hgl, hbread]
              · have h3 : readMsg
                    (H ++ [.hBlock { b with cacheControl := some cc },
                           .hBlocks (refs.dropLast ++ [H.length]),
                           .hMsg role (.ref (H.length + 1))])
                    (H.length + 2) = some (role, .ref (H.length + 1)) := by
                  unfold readMsg
                  rw [get?_append_add]
                  rfl
                have h2 : readBlocks
                    (H ++ [.hBlock { b with cacheControl := some cc },
                           .hBlocks (refs.dropLast ++ [H.length]),
                           .hMsg role (.ref (H.length + 1))])
                    (H.length + 1) = some (refs.dropLast ++ [H.length]) := by
                  unfold readBlocks
                  rw [get?_append_add]
                  rfl
                have h1 : readBlock
                    (H ++ [.hBlock { b with cacheControl := some cc },
                           .hBlocks (refs.dropLast ++ [H.length]),
                           .hMsg role (.ref (H.length + 1))])
                    H.length = some { b with cacheControl := some cc } := by
                  unfold readBlock
                  rw [get?_append_self]
                  rfl
                have hdl : denoteBlockList
                    (H ++ [.hBlock { b with cacheControl := some cc },
                           .hBlocks (refs.dropLast ++ [H.length]),
                           .hMsg role (.ref (H.length + 1))])
                    (refs.dropLast ++ [H.length]) =
                    some (bs1 ++ [{ b with cacheControl := some cc }]) :=
                  denoteBlockList_concat _ refs.dropLast H.length bs1 _
                    (denoteBlockList_stable (heap_extends H _) hbs1) h1
                unfold denoteMsg
                rw [h3]
                simp only [denoteContent, h2, hdl]
                simp [prepCore, hci, List.getLast?_concat, List.dropLast_concat]
          · refine ⟨H ++ [.hMsg role (.ref lref)], H.length, ?_,
                    heap_extends H _, ?_⟩
            · simp only [prepareMsgH, hr, if_neg hci]
            · have h3 : readMsg (H ++ [.hMsg role (.ref lref)]) H.length =
                  some (role, .ref lref) := by
                unfold readMsg
                rw [get?_append_self]
                rfl
              unfold denoteMsg
              rw [h3]
              simp only [denoteContent,
                readBlocks_stable (heap_extends H _) hb,
                denoteBlockList_stable (heap_extends H _) hl]
              simp [prepCore, hci]

theorem prepareListH_spec (cc : CacheControl) (ci : Int) :
    ∀ (refs : List Nat) (H : Heap) (ms : List Message) (i : Nat),
      denoteMsgList H refs = some ms →
      ∃ H2 rs, prepareListH H cc ci i refs = some (H2, rs) ∧ H <+: H2 ∧
        denoteMsgList H2 rs =
          some ((ms.enumFrom i).map (fun p => prepCore cc ci p.1 p.2)) := by
  intro refs
  induction refs with
  | nil =>
    intro H ms i h
    cases h
    exact ⟨H, [], rfl, List.prefix_refl H, rfl⟩
  | cons a as ih =>
    intro H ms i h
    simp only [denoteMsgList] at h
    cases hm : denoteMsg H a with
    | none => simp only [hm] at h; cases h
    | some m =>
      simp only [hm] at h
      cases hl : denoteMsgList H as with
      | none => simp only [hl] at h; cases h
      | some xs =>
        simp only [hl] at h
        cases h
        obtain ⟨H1, r, hpm, hpre1, hden1⟩ := prepareMsgH_spec H cc ci i a m hm
        obtain ⟨H2, rs, hpl, hpre2, hden2⟩ :=
          ih H1 xs (i + 1) (denoteMsgList_stable hpre1 hl)
        refine ⟨H2, r :: rs, ?_, hpre1.trans hpre2, ?_⟩
        · simp only [prepareListH, hpm, hpl]
        · simp only [denoteMsgList, denoteMsg_stable hpre2 hden1, hden2,
            List.enumFrom, List.map_cons]

theorem prepareH_spec (H : Heap) (a : Nat) (ttl : String) (ms : List Message)
    (h : denoteConv H a = some ms) :
    ∃ H1 r, prepareH H a ttl = some (H1, r) ∧ H <+: H1 ∧
      denoteConv H1 r = some (prepare_messages_for_cache ms ttl) := by
  unfold denoteConv at h
  cases hrm : readMsgs H a with
  | none => simp only [hrm] at h; cases h
  | some msgRefs =>
    simp only [hrm] at h
    have hlen : msgRefs.length = ms.length := denoteMsgList_length H h
    by_cases hoff : ttl = "off" ∨ msgRefs.length < 2
    · have hoff2 : ttl = "off" ∨ ms.length < 2 := by
        rcases hoff with h1 | h2
        · exact Or.inl h1
        · exact Or.inr (by omega)
      refine ⟨H, a, ?_, List.prefix_refl H, ?_⟩
      · simp only [prepareH, hrm, if_pos hoff]
      · unfold denoteConv
        simp only [hrm, h, prepare_messages_for_cache, if_pos hoff2]
    · have hoff2 : ¬ (ttl = "off" ∨ ms.length < 2) := by
        intro hc
        apply hoff
        rcases hc with h1 | h2
        · exact Or.inl h1
        · exact Or.inr (by omega)
      have hhum := humanIndicesH_spec H msgRefs ms 0 h
      obtain ⟨H2, rs, hpl, hpre, hden⟩ :=
        prepareListH_spec
          (if ttl = "1h" then ⟨some 3600⟩ else ⟨none⟩)
          (if 2 ≤ (((ms.enumFrom 0).filter
              (fun p => is_human_message p.2)).map (fun p => p.1)).length
           then ((((((ms.enumFrom 0).filter
                (fun p => is_human_message p.2)).map (fun p => p.1)).get?
                ((((ms.enumFrom 0).filter
                  (fun p => is_human_message p.2)).map (fun p => p.1)).length
                  - 2)).getD 0 : Nat) : Int)
           else -1)
          msgRefs H ms 0 h
      refine ⟨H2 ++ [.hMsgs rs], H2.length, ?_, hpre.trans (heap_extends H2 _), ?_⟩
      · simp only [prepareH, hrm, if_neg hoff, hhum, hpl]
      · unfold denoteConv
        have hr2 : readMsgs (H2 ++ [.hMsgs rs]) H2.length = some rs := by
          unfold readMsgs
          rw [get?_append_self]
          rfl
        simp only [hr2, denoteMsgList_stable (heap_extends H2 _) hden]
        simp only [prepare_messages_for_cache, if_neg hoff2]
        rfl

/-- C6: `prepare_messages_for_cache` is pure.  Run over the explicit
object heap, it only allocates: every pre-existing address — the input
message list object and every message and block dictionary in it — is
unchanged afterwards; the returned object reads back as
`prepare_messages_for_cache` of the input's value; and calling it a
second time with the same argument (on the evolved heap) returns a
value-equal output, i.e. the same annotation placement. -/
theorem prepare_messages_for_cache_pure (H : Heap) (a : Nat) (ttl : String)
    (ms : List Message) (h : denoteConv H a = some ms) :
    ∃ H1 r1, prepareH H a ttl = some (H1, r1) ∧
      (∀ i, i < H.length → H1.get? i = H.get? i) ∧
      denoteConv H1 r1 = some (prepare_messages_for_cache ms ttl) ∧
      (∀ H2 r2, prepareH H1 a ttl = some (H2, r2) →
        denoteConv H2 r2 = denoteConv H1 r1) := by
  obtain ⟨H1, r1, hp, hpre, hden⟩ := prepareH_spec H a ttl ms h
  refine ⟨H1, r1, hp, ?_, hden, ?_⟩
  · intro i hi
    obtain ⟨t, rfl⟩ := hpre
    rw [List.get?_append hi]
  · intro H2 r2 hp2
    obtain ⟨H2b, r2b, hp2b, _, hden2⟩ :=
      prepareH_spec H1 a ttl ms (denoteConv_stable hpre h)
    rw [hp2] at hp2b
    cases hp2b
    rw [hden2, hden]

theorem prepare_messages_for_cache_pure_witness :
    ∃ H1 r1,
      prepareH [HObj.hMsgs [1], HObj.hMsg "user" (HContent.str "hi")] 0 "5m" =
        some (H1, r1) ∧
      (∀ i, i < ([HObj.hMsgs [1], HObj.hMsg "user" (HContent.str "hi")] : Heap).length →
        H1.get? i = ([HObj.hMsgs [1], HObj.hMsg "user" (HContent.str "hi")] : Heap).get? i) ∧
      denoteConv H1 r1 =
        some (prepare_messages_for_cache [⟨"user", .str "hi"⟩] "5m") ∧
      (∀ H2 r2, prepareH H1 0 "5m" = some (H2, r2) →
        denoteConv H2 r2 = denoteConv H1 r1) :=
  prepare_messages_for_cache_pure
    [HObj.hMsgs [1], HObj.hMsg "user" (HContent.str "hi")] 0 "5m"
    [⟨"user", .str "hi"⟩] (by decide)

end Graft
